import Mathlib

/-!
Shallow embedding of the Control-de-Gastos core (`control_gastos.py` and
`control_gastos_app.py`): the money parsing/rounding helpers, the calendar
helpers, the ledger mutation operations and the month aggregation functions.

Monetary values are embedded at cent granularity: a 2-decimal-place decimal
amount is the integer of its cents.  Python `Decimal` construction is exact,
and `quantize(Decimal("0.01"))` of an exact value is the corresponding
rounding of the exact rational, so every operation of the source is a
function on integers/rationals here.  Fallible operations (`Decimal(...)`
raising `InvalidOperation`, `strptime` raising `ValueError`) are embedded
with `Option`; `none` is the raising outcome.
-/

namespace ControlGastos

/-! ## Character and digit helpers -/

/-- Digit character test (ASCII `0`-`9`), as used by decimal parsing. -/
def isDigitC (c : Char) : Bool := 48 ≤ c.toNat && c.toNat ≤ 57

/-- Numeric value of a digit character. -/
def digitVal (c : Char) : ℕ := c.toNat - 48

/-- Character of a digit (`0 ≤ d ≤ 9`). -/
def digitChar (d : ℕ) : Char := Char.ofNat (48 + d)

/-- ASCII whitespace test, for the whitespace stripping performed by
`str.strip()` and by the `Decimal` constructor. -/
def isSpaceC (c : Char) : Bool :=
  c = ' ' || c = '\t' || c = '\n' || c = '\x0d' || c = '\x0c' || c = '\x0b'

/-- Strip leading and trailing whitespace from a character list. -/
def stripWS (cs : List Char) : List Char :=
  ((cs.dropWhile isSpaceC).reverse.dropWhile isSpaceC).reverse

/-- Longest digit run at the front of the input, and the rest. -/
def takeDigits : List Char → List Char × List Char
  | [] => ([], [])
  | c :: cs =>
    if isDigitC c then
      let p := takeDigits cs
      (c :: p.1, p.2)
    else ([], c :: cs)

/-- Numeric value of a digit-character run (most significant first). -/
def natOfDigits (ds : List Char) : ℕ :=
  ds.foldl (fun a c => 10 * a + digitVal c) 0

/-- Decimal digits of `n`, least significant first, with explicit fuel so
that the definition is structural. -/
def natDigitsRevAux : ℕ → ℕ → List ℕ
  | 0, _ => []
  | fuel + 1, n => if n = 0 then [] else n % 10 :: natDigitsRevAux fuel (n / 10)

/-- Decimal digits of `n`, least significant first (empty for `0`). -/
def natDigitsRev (n : ℕ) : List ℕ := natDigitsRevAux n n

/-- Decimal rendering of a natural number, as Python renders integers. -/
def natToChars (n : ℕ) : List Char :=
  if n = 0 then ['0'] else ((natDigitsRev n).reverse).map digitChar

/-! ## Decimal string parsing (`Decimal(str)`)

Finite numeric strings of the `decimal` module:
`sign? (digits ('.' digits?)? | '.' digits) ([eE] sign? digits)?`, with
surrounding whitespace allowed.  The result is a pair `(m, e)` representing
the exact value `m * 10 ^ e`.  Special values (`NaN`, `Infinity`) and
digit-group underscores are not modelled. -/

/-- Parse the coefficient part: integer digits and optional fractional
digits.  Returns coefficient, number of fractional digits, and the rest. -/
def parseCoeff (cs : List Char) : Option (ℕ × ℕ × List Char) :=
  let ip := takeDigits cs
  match ip.2 with
  | c :: rest2 =>
    if c = '.' then
      let fp := takeDigits rest2
      if ip.1 = [] ∧ fp.1 = [] then none
      else some (natOfDigits (ip.1 ++ fp.1), (fp.1).length, fp.2)
    else if ip.1 = [] then none
    else some (natOfDigits ip.1, 0, ip.2)
  | [] => if ip.1 = [] then none else some (natOfDigits ip.1, 0, ip.2)

/-- Parse an optionally signed, nonempty, all-digit run covering the whole
input (the exponent of a decimal literal). -/
def parseSignedNat (cs : List Char) : Option ℤ :=
  match cs with
  | c :: r =>
    if c = '+' then (if r ≠ [] ∧ r.all isDigitC then some (natOfDigits r) else none)
    else if c = '-' then
      (if r ≠ [] ∧ r.all isDigitC then some (-(natOfDigits r : ℤ)) else none)
    else (if (c :: r).all isDigitC then some (natOfDigits (c :: r)) else none)
  | [] => none

/-- Sign detection at the front of a decimal literal: the sign factor and
the unsigned remainder. -/
def splitSign (cs : List Char) : ℤ × List Char :=
  match cs with
  | c :: r =>
    if c = '+' then (1, r)
    else if c = '-' then (-1, r)
    else (1, c :: r)
  | [] => (1, [])

/-- Parse a finite decimal numeric string (after whitespace stripping):
result `(m, e)` stands for the exact value `m * 10 ^ e`. -/
def parseDecimalChars (cs : List Char) : Option (ℤ × ℤ) :=
  let sb := splitSign cs
  match parseCoeff sb.2 with
  | none => none
  | some (coeff, scale, rest) =>
    match rest with
    | [] => some (sb.1 * coeff, -(scale : ℤ))
    | c :: r2 =>
      if c = 'e' ∨ c = 'E' then
        match parseSignedNat r2 with
        | some e => some (sb.1 * coeff, e - scale)
        | none => none
      else none

/-! ## Rounding -/

/-- Round `num / den` (`den > 0`) to the nearest integer with ties away from
zero: the semantics of `quantize(..., rounding=ROUND_HALF_UP)` applied to an
exact quotient, at cent granularity. -/
def divHalfUpAway (num den : ℤ) : ℤ :=
  Int.sign num * (((2 * num.natAbs + den.natAbs) / (2 * den.natAbs) : ℕ) : ℤ)

/-- Cents of the 2-place quantization (ROUND_HALF_UP) of the exact value
`m * 10 ^ e`. -/
def quantize2HalfUp (m e : ℤ) : ℤ :=
  if 0 ≤ e + 2 then m * 10 ^ (e + 2).toNat
  else divHalfUpAway m (10 ^ (-(e + 2)).toNat)

/-- Round `num / den` (`den > 0`) to the nearest integer with ties to even:
the semantics of `quantize(Decimal("0.01"))` under the default
`ROUND_HALF_EVEN` context rounding, applied to the exact quotient, at cent
granularity. -/
def divHalfEven (num den : ℤ) : ℤ :=
  let f := num / den
  let r := num % den
  if 2 * r < den then f
  else if den < 2 * r then f + 1
  else if f % 2 = 0 then f else f + 1

/-! ## The money helpers of the source -/

/-- `control_gastos.d`: convert a string to a `Decimal` and quantize to two
places with `ROUND_HALF_UP`.  Result in cents; `none` is the
"Número inválido" failure. -/
def d (s : String) : Option ℤ :=
  match parseDecimalChars (stripWS s.data) with
  | none => none
  | some (m, e) => some (quantize2HalfUp m e)

/-- Comma-to-point normalization, `str.replace(",", ".")`. -/
def commaToPoint (s : String) : String :=
  ⟨s.data.map (fun c => if c = ',' then '.' else c)⟩

/-- `control_gastos_app.d` (the `parseMoney` of the spec): normalize the
comma to a point, then parse and quantize as `d` does. -/
def parseMoney (s : String) : Option ℤ := d (commaToPoint s)

/-- Two zero-padded digit characters of `n` (`n < 100`), as `%.2f` renders
the fractional part. -/
def twoDigitChars (n : ℕ) : List Char := [digitChar (n / 10), digitChar (n % 10)]

/-- Insert a comma after every three characters of a reversed digit list:
the thousands grouping of Python's `,` format specifier. -/
def group3Rev : List Char → List Char
  | [] => []
  | [a] => [a]
  | [a, b] => [a, b]
  | [a, b, c] => [a, b, c]
  | a :: b :: c :: rest => a :: b :: c :: ',' :: group3Rev rest

/-- Character rendering of `f"${x:,.2f}"` for the 2-place value of `n`
cents: dollar sign, then sign, thousands-grouped integer part, point, and
two fractional digits. -/
def fmtMoneyChars (n : ℤ) : List Char :=
  '$' :: ((if n < 0 then ['-'] else []) ++
    (group3Rev (natToChars (n.natAbs / 100)).reverse).reverse ++
    '.' :: twoDigitChars (n.natAbs % 100))

/-- `control_gastos.fmt_money`. -/
def fmt_money (n : ℤ) : String := ⟨fmtMoneyChars n⟩

/-- Rendering of `str(amount)` for a 2-place `Decimal` amount of `n` cents
(no grouping, always two fractional digits). -/
def renderCents (n : ℤ) : String :=
  ⟨(if n < 0 then ['-'] else []) ++ natToChars (n.natAbs / 100) ++
    '.' :: twoDigitChars (n.natAbs % 100)⟩

/-! ## Calendar -/

/-- A plain calendar date, as `datetime.date`. -/
structure Date where
  year : ℕ
  month : ℕ
  day : ℕ
deriving DecidableEq

/-- Gregorian leap-year rule. -/
def isLeapYear (y : ℕ) : Bool := y % 4 = 0 && (y % 100 ≠ 0 || y % 400 = 0)

/-- Length of a month. -/
def daysInMonth (y m : ℕ) : ℕ :=
  if m = 2 then (if isLeapYear y then 29 else 28)
  else if m = 4 ∨ m = 6 ∨ m = 9 ∨ m = 11 then 30
  else 31

/-- Validity of a date: the range `datetime.date` accepts. -/
def Date.valid (dt : Date) : Prop :=
  1 ≤ dt.year ∧ dt.year ≤ 9999 ∧ 1 ≤ dt.month ∧ dt.month ≤ 12 ∧
    1 ≤ dt.day ∧ dt.day ≤ daysInMonth dt.year dt.month

instance (dt : Date) : Decidable dt.valid := by
  unfold Date.valid
  infer_instance

/-- `month_start`: `dt.replace(day=1)`. -/
def month_start (dt : Date) : Date := { dt with day := 1 }

/-- The calendar day before `dt`: the effect of `- timedelta(days=1)` on a
valid date. -/
def predDay (dt : Date) : Date :=
  if 1 < dt.day then { dt with day := dt.day - 1 }
  else if 1 < dt.month then ⟨dt.year, dt.month - 1, daysInMonth dt.year (dt.month - 1)⟩
  else ⟨dt.year - 1, 12, 31⟩

/-- `month_end`: first day of the next month (with December rolling over to
January of the next year) minus one day. -/
def month_end (dt : Date) : Date :=
  if dt.month = 12 then predDay ⟨dt.year + 1, 1, 1⟩
  else predDay ⟨dt.year, dt.month + 1, 1⟩

/-- Number of leap years in `1..y`. -/
def leapsBefore (y : ℕ) : ℕ := y / 4 - y / 100 + y / 400

/-- Days of year `y` before the first day of month `m`. -/
def daysBeforeMonth (y m : ℕ) : ℕ :=
  (List.range (m - 1)).foldl (fun a i => a + daysInMonth y (i + 1)) 0

/-- `date.toordinal()`: day count from the proleptic Gregorian day
0001-01-01 (which has ordinal 1). -/
def toOrdinal (dt : Date) : ℕ :=
  365 * (dt.year - 1) + leapsBefore (dt.year - 1) + daysBeforeMonth dt.year dt.month + dt.day

/-- `(a - b).days` on dates. -/
def dateSub (a b : Date) : ℤ := (toOrdinal a : ℤ) - (toOrdinal b : ℤ)

/-- `days_remaining_in_month`: days from `today` to the end of its month,
counting `today` itself. -/
def days_remaining_in_month (today : Date) : ℤ :=
  dateSub (month_end today) today + 1

/-- Date comparison `a <= b`, as tuple comparison of `(year, month, day)`. -/
def dateLe (a b : Date) : Prop :=
  a.year < b.year ∨ (a.year = b.year ∧
    (a.month < b.month ∨ (a.month = b.month ∧ a.day ≤ b.day)))

instance (a b : Date) : Decidable (dateLe a b) := by
  unfold dateLe
  infer_instance

/-- `parse_date`: strict `strptime(s.strip(), "%Y-%m-%d")` — three dash
separated digit runs (up to 4/2/2 digits), validated as a calendar date. -/
def parse_date (s : String) : Option Date :=
  let cs := stripWS s.data
  let yp := takeDigits cs
  match yp.2 with
  | '-' :: r2 =>
    let mp := takeDigits r2
    match mp.2 with
    | '-' :: r4 =>
      let dp := takeDigits r4
      if dp.2 = [] ∧ yp.1 ≠ [] ∧ (yp.1).length ≤ 4 ∧ mp.1 ≠ [] ∧
          (mp.1).length ≤ 2 ∧ dp.1 ≠ [] ∧ (dp.1).length ≤ 2 then
        let dt : Date := ⟨natOfDigits yp.1, natOfDigits mp.1, natOfDigits dp.1⟩
        if dt.valid then some dt else none
      else none
    | _ => none
  | _ => none

/-- `today.strftime("%Y-%m")`: zero-padded month key. -/
def monthKeyStr (dt : Date) : String :=
  ⟨[digitChar (dt.year / 1000 % 10), digitChar (dt.year / 100 % 10),
    digitChar (dt.year / 10 % 10), digitChar (dt.year % 10), '-',
    digitChar (dt.month / 10 % 10), digitChar (dt.month % 10)]⟩

/-! ## Ledger store -/

/-- A `monthly_incomes` row: `{person, amount, month}` with the amount kept
as a decimal string. -/
structure IncomeRec where
  person : String
  amount : String
  month : String
deriving DecidableEq

/-- An `extra_incomes` row: `{person, amount, dt, note}`. -/
structure ExtraRec where
  person : String
  amount : String
  dt : String
  note : String
deriving DecidableEq

/-- An `expenses` row: `{amount, category, dt, note}`. -/
structure ExpenseRec where
  amount : String
  category : String
  dt : String
  note : String
deriving DecidableEq

/-- The persisted ledger state. -/
structure LedgerState where
  categories : List String
  people : List String
  monthly_incomes : List IncomeRec
  extra_incomes : List ExtraRec
  expenses : List ExpenseRec
deriving DecidableEq

/-- `str.strip()` on a string. -/
def pyStrip (s : String) : String := ⟨stripWS s.data⟩

/-- `str.lower()` (ASCII range, as the sort keys of this program use). -/
def strLower (s : String) : String := ⟨s.data.map Char.toLower⟩

/-- Lexicographic strict comparison of character lists by code point: the
semantics of Python's `<` on strings. -/
def charsLt : List Char → List Char → Bool
  | [], [] => false
  | [], _ :: _ => true
  | _ :: _, [] => false
  | a :: as, b :: bs => a < b || (a = b && charsLt as bs)

/-- Sort key comparison of `lst.sort(key=lambda x: x.lower())`: strict
comparison of the lowercased strings. -/
def keyLt (a b : String) : Bool := charsLt (strLower a).data (strLower b).data

/-- The non-strict sort-key order: `a` may come before `b`. -/
def keyLe (a b : String) : Prop := keyLt b a = false

/-- Stable insertion of `x` into a list sorted by lowercased key: `x` goes
after entries with an equal key, as Python's stable `list.sort` leaves it. -/
def insertByLower (x : String) : List String → List String
  | [] => [x]
  | y :: ys => if keyLt x y then x :: y :: ys else y :: insertByLower x ys

/-- `lst.sort(key=lambda x: x.lower())`: stable sort by lowercased key. -/
def sortByLower (l : List String) : List String :=
  l.foldl (fun acc x => insertByLower x acc) []

/-- `ensure_unique_add`: trim, reject empty, reject an exact member of the
list, otherwise append and re-sort by lowercased key.  Returns the success
flag and the resulting list. -/
def ensure_unique_add (lst : List String) (item : String) : Bool × List String :=
  let t := pyStrip item
  if t = "" then (false, lst)
  else if t ∈ lst then (false, lst)
  else (true, sortByLower (lst ++ [t]))

/-- Match of a `monthly_incomes` row against a `(person, month)` pair. -/
def matchPM (p mk : String) (r : IncomeRec) : Bool :=
  r.person == p && r.month == mk

/-- Worker of `set_monthly_income` on the `monthly_incomes` list: overwrite
the amount of the first matching row, else append a new row. -/
def setIncomeList : List IncomeRec → String → ℤ → String → List IncomeRec
  | [], person, amount, mk => [⟨person, renderCents amount, mk⟩]
  | r :: rest, person, amount, mk =>
    if r.person = person ∧ r.month = mk then { r with amount := renderCents amount } :: rest
    else r :: setIncomeList rest person amount mk

/-- `set_monthly_income(state, person, amount, month_key)`. -/
def set_monthly_income (st : LedgerState) (person : String) (amount : ℤ)
    (mk : String) : LedgerState :=
  { st with monthly_incomes := setIncomeList st.monthly_incomes person amount mk }

/-! ## Aggregator -/

/-- The `monthly_incomes` summation loop of `totals_for_month`. -/
def sumIncomes (mk : String) : List IncomeRec → Option ℤ
  | [] => some 0
  | r :: rest =>
    if r.month = mk then
      match d r.amount with
      | none => none
      | some a => (sumIncomes mk rest).map (fun s => a + s)
    else sumIncomes mk rest

/-- The `extra_incomes` summation loop of `totals_for_month`: parse each
row's date, and add the amounts dated inside `[start, stop]`. -/
def sumExtras (start stop : Date) : List ExtraRec → Option ℤ
  | [] => some 0
  | r :: rest =>
    match parse_date r.dt with
    | none => none
    | some dt =>
      if dateLe start dt ∧ dateLe dt stop then
        match d r.amount with
        | none => none
        | some a => (sumExtras start stop rest).map (fun s => a + s)
      else sumExtras start stop rest

/-- The `expenses` summation loop of `totals_for_month`. -/
def sumExpenses (start stop : Date) : List ExpenseRec → Option ℤ
  | [] => some 0
  | r :: rest =>
    match parse_date r.dt with
    | none => none
    | some dt =>
      if dateLe start dt ∧ dateLe dt stop then
        match d r.amount with
        | none => none
        | some a => (sumExpenses start stop rest).map (fun s => a + s)
      else sumExpenses start stop rest

/-- `totals_for_month(state, today)`: `(base_income, extra_income, expenses)`
in cents for the month of `today`.  The final 2-place quantization of the
source is the identity on these exact cent sums. -/
def totals_for_month (st : LedgerState) (today : Date) : Option (ℤ × ℤ × ℤ) :=
  let mk := monthKeyStr today
  let start := month_start today
  let stop := month_end today
  match sumIncomes mk st.monthly_incomes with
  | none => none
  | some base =>
    match sumExtras start stop st.extra_incomes with
    | none => none
    | some extra =>
      match sumExpenses start stop st.expenses with
      | none => none
      | some exp => some (base, extra, exp)

/-- The guarded per-day expression of line 179:
`(remaining / Decimal(days_left)).quantize(Decimal("0.01")) if days_left > 0
else Decimal("0.00")`. -/
def perDayCalc (remaining daysLeft : ℤ) : ℤ :=
  if 0 < daysLeft then divHalfEven remaining daysLeft else 0

/-- `remaining_and_per_day(state, today)`: `(remaining, per_day, days_left)`
with money in cents. -/
def remaining_and_per_day (st : LedgerState) (today : Date) : Option (ℤ × ℤ × ℤ) :=
  match totals_for_month st today with
  | none => none
  | some (base, extra, exp) =>
    let remaining := base + extra - exp
    let daysLeft := days_remaining_in_month today
    some (remaining, perDayCalc remaining daysLeft, daysLeft)

/-! ## Auxiliary definitions used by the statements and proofs -/

/-- Number of `monthly_incomes` rows for one `(person, month)` pair. -/
def countMatch (l : List IncomeRec) (p mk : String) : ℕ :=
  (l.filter (matchPM p mk)).length

/-- The at-most-one-record-per-`(person, month)` invariant. -/
def incomeInv (l : List IncomeRec) : Prop :=
  ∀ p mk, countMatch l p mk ≤ 1

/-- Removal of the display-only characters of `fmt_money` (the currency
sign and the thousands separators). -/
def stripCurrency (s : String) : String :=
  ⟨s.data.filter (fun c => !(c = '$' || c = ','))⟩

/-- Rewriting of a decimal point as a comma: turns a point-separated
numeric string into the comma-separated spelling of the same number. -/
def pointToComma (s : String) : String :=
  ⟨s.data.map (fun c => if c = '.' then ',' else c)⟩

/-- Value of a least-significant-first digit list. -/
def valOfRev : List ℕ → ℕ
  | [] => 0
  | k :: t => k + 10 * valOfRev t

/-- The coefficient part of the finite numeric-string grammar of
`Decimal(str)`: either a nonempty digit run, or a decimal point with digit
runs around it, at least one of them nonempty. -/
def NumericBody (cs : List Char) : Prop :=
  (cs ≠ [] ∧ ∀ c ∈ cs, isDigitC c = true) ∨
  (∃ ip fp, cs = ip ++ '.' :: fp ∧ (ip ≠ [] ∨ fp ≠ []) ∧
    (∀ c ∈ ip, isDigitC c = true) ∧ (∀ c ∈ fp, isDigitC c = true))

/-- The exponent part of the grammar: `e` or `E`, an optional sign, and a
nonempty digit run. -/
def NumericExp (cs : List Char) : Prop :=
  ∃ mark sgn ds, (mark = 'e' ∨ mark = 'E') ∧
    (sgn = [] ∨ sgn = ['+'] ∨ sgn = ['-']) ∧
    ds ≠ [] ∧ (∀ c ∈ ds, isDigitC c = true) ∧ cs = mark :: (sgn ++ ds)

/-- The finite numeric-string grammar of `Decimal(str)`: optional sign,
coefficient, optional exponent.  This is only the finite-number alternative
of the constructor's grammar; digit-group underscores (removed before this
grammar applies), the `NaN`/`Infinity` special values, and the
context-precision failure of the subsequent `quantize` are modelled by
`dFull` below. -/
def NumericChars (cs : List Char) : Prop :=
  ∃ sgn body ex, cs = sgn ++ body ++ ex ∧
    (sgn = [] ∨ sgn = ['+'] ∨ sgn = ['-']) ∧
    NumericBody body ∧ (ex = [] ∨ NumericExp ex)

/-- Outcome of the source's `d` with the full behaviour of
`Decimal(str)` followed by `quantize(Decimal("0.01"), ROUND_HALF_UP)`:
a finite 2-place value in cents; a quiet NaN propagated through the
quantize (no failure at all); an uncaught `decimal.InvalidOperation`
raised by the quantize, which sits outside the `try` (infinities,
signaling NaNs, and results whose coefficient exceeds the 28-digit
context precision); or the "Número inválido" `ValueError` (the
InvalidAmount of the spec) from a constructor failure inside the
`try`. -/
inductive DResult where
  | val : ℤ → DResult
  | nan : DResult
  | uncaught : DResult
  | invalidAmount : DResult
deriving DecidableEq

/-- The three special-value alternatives of the `Decimal` constructor
grammar. -/
inductive SpecialKind where
  | quietNaN : SpecialKind
  | signalingNaN : SpecialKind
  | infinity : SpecialKind
deriving DecidableEq

/-- ASCII lowercasing of a character list: the special-value forms of the
constructor grammar match case-insensitively. -/
def lowerChars (cs : List Char) : List Char := cs.map Char.toLower

/-- The `Decimal` constructor removes underscores throughout the
whitespace-stripped string before parsing. -/
def removeUnderscores (cs : List Char) : List Char :=
  cs.filter (fun c => !(c = '_'))

/-- Recognizer for the lowercased NaN tail: `nan` followed by optional
diagnostic digits. -/
def isNaNBody (l : List Char) : Bool :=
  match l with
  | a :: b :: c :: ds => a = 'n' && b = 'a' && c = 'n' && ds.all isDigitC
  | _ => false

/-- Recognizer for a special-value body (after the optional sign):
`inf`/`infinity`, `nan`+digits or `snan`+digits, case-insensitively. -/
def parseSpecialBody (cs : List Char) : Option SpecialKind :=
  if lowerChars cs = ['i', 'n', 'f'] ∨
      lowerChars cs = ['i', 'n', 'f', 'i', 'n', 'i', 't', 'y'] then
    some SpecialKind.infinity
  else if isNaNBody (lowerChars cs) then some SpecialKind.quietNaN
  else
    match cs with
    | c :: t =>
      if Char.toLower c = 's' ∧ isNaNBody (lowerChars t) = true then
        some SpecialKind.signalingNaN
      else none
    | [] => none

/-- The special-value alternatives of the constructor grammar: an optional
sign followed by a special body. -/
def parseSpecial (cs : List Char) : Option SpecialKind :=
  parseSpecialBody (splitSign cs).2

/-- Declarative lowercased NaN tail. -/
def NaNForm (l : List Char) : Prop :=
  ∃ ds, (∀ c ∈ ds, isDigitC c = true) ∧ l = 'n' :: 'a' :: 'n' :: ds

/-- Declarative special-value body, on the lowercased characters. -/
def SpecialTail (l : List Char) : Prop :=
  l = ['i', 'n', 'f'] ∨ l = ['i', 'n', 'f', 'i', 'n', 'i', 't', 'y'] ∨
    NaNForm l ∨ ∃ t, l = 's' :: t ∧ NaNForm t

/-- Declarative special-value grammar: optional sign, then a special
body. -/
def SpecialChars (cs : List Char) : Prop :=
  ∃ sgn rest, (sgn = [] ∨ sgn = ['+'] ∨ sgn = ['-']) ∧ cs = sgn ++ rest ∧
    SpecialTail (lowerChars rest)

/-- Length of the longest run of consecutive digits. -/
def maxDigitRunAux : List Char → ℕ → ℕ → ℕ
  | [], cur, best => max cur best
  | c :: t, cur, best =>
    if isDigitC c then maxDigitRunAux t (cur + 1) best
    else maxDigitRunAux t 0 (max cur best)

/-- Length of the longest digit run of a character list.  When every digit
run of the normalized input has at most 17 digits, any exponent literal is
below 10^17, safely within the exponent range the C `decimal` module can
represent, so the constructor cannot fail on a grammar-conforming string
for range reasons. -/
def maxDigitRun (cs : List Char) : ℕ := maxDigitRunAux cs 0 0

/-- The text the app's parse boundary hands to the decimal grammar: the
comma-to-point normalization, then the constructor's whitespace strip and
underscore removal. -/
def moneyNorm (s : String) : List Char :=
  removeUnderscores (stripWS (commaToPoint s).data)

/-- Full-outcome model of the source's `d`: parse the finite numeric
grammar (after stripping and underscore removal); on success, quantizing
to two places yields the cent value unless the resulting coefficient
exceeds the 28-digit context precision, which raises an uncaught
`InvalidOperation`; otherwise try the special values — a quiet NaN
propagates through the quantize as a NaN result, while infinities and
signaling NaNs make the quantize raise the uncaught `InvalidOperation`;
anything else fails in the constructor inside the `try` and becomes the
InvalidAmount `ValueError`. -/
def dFull (s : String) : DResult :=
  let t := removeUnderscores (stripWS s.data)
  match parseDecimalChars t with
  | some (m, e) =>
    if (quantize2HalfUp m e).natAbs < 10 ^ 28 then
      DResult.val (quantize2HalfUp m e)
    else DResult.uncaught
  | none =>
    match parseSpecial t with
    | some SpecialKind.quietNaN => DResult.nan
    | some SpecialKind.signalingNaN => DResult.uncaught
    | some SpecialKind.infinity => DResult.uncaught
    | none => DResult.invalidAmount

/-- Full-outcome model of the app's `d` (the `parseMoney` boundary):
commas become points, then `dFull`. -/
def parseMoneyFull (s : String) : DResult := dFull (commaToPoint s)

/-- The ledger state of the end-to-end example of the spec. -/
def exState : LedgerState :=
  { categories := [], people := [],
    monthly_incomes := [⟨"Ana", "50000.00", "2026-01"⟩],
    extra_incomes := [⟨"Ana", "2000.00", "2026-01-10", ""⟩],
    expenses := [⟨"15000.00", "Comida", "2026-01-05", ""⟩,
                 ⟨"5000.00", "Comida", "2025-12-20", ""⟩] }

/-- A one-income ledger state (5 cents for January 2026) exhibiting the
half-cent tie in the per-day division. -/
def tieState : LedgerState :=
  { categories := [], people := [],
    monthly_incomes := [⟨"Ana", "0.05", "2026-01"⟩],
    extra_incomes := [], expenses := [] }

end ControlGastos

namespace ControlGastos


/-! ## Calendar lemmas -/

theorem daysInMonth_cases (y m : ℕ) :
    daysInMonth y m = 28 ∨ daysInMonth y m = 29 ∨ daysInMonth y m = 30 ∨
      daysInMonth y m = 31 := by
  unfold daysInMonth
  split
  · split
    · exact Or.inr (Or.inl rfl)
    · exact Or.inl rfl
  · split
    · exact Or.inr (Or.inr (Or.inl rfl))
    · exact Or.inr (Or.inr (Or.inr rfl))

theorem daysInMonth_ge (y m : ℕ) : 28 ≤ daysInMonth y m := by
  rcases daysInMonth_cases y m with h | h | h | h <;> omega

theorem daysInMonth_twelve (y : ℕ) : daysInMonth y 12 = 31 := by
  unfold daysInMonth
  norm_num

theorem month_end_eq (dt : Date) (h : dt.valid) :
    month_end dt = ⟨dt.year, dt.month, daysInMonth dt.year dt.month⟩ := by
  obtain ⟨h1, h2, h3, h4, h5, h6⟩ := h
  unfold month_end predDay
  by_cases hm : dt.month = 12
  · rw [if_pos hm]
    simp only [show ¬(1 < 1) from by omega, if_false]
    simp only [Date.mk.injEq]
    rw [hm, daysInMonth_twelve]
    omega
  · rw [if_neg hm]
    simp only [show ¬(1 < 1) from by omega, if_false,
      show 1 < dt.month + 1 from by omega, if_true]
    simp only [Date.mk.injEq, Nat.add_sub_cancel]

theorem month_end_valid (dt : Date) (h : dt.valid) : (month_end dt).valid := by
  rw [month_end_eq dt h]
  obtain ⟨h1, h2, h3, h4, h5, h6⟩ := h
  have h7 := daysInMonth_ge dt.year dt.month
  exact ⟨h1, h2, h3, h4,
    (by omega : 1 ≤ daysInMonth dt.year dt.month),
    (le_refl (daysInMonth dt.year dt.month))⟩

theorem month_start_valid (dt : Date) (h : dt.valid) : (month_start dt).valid := by
  obtain ⟨h1, h2, h3, h4, h5, h6⟩ := h
  have h7 := daysInMonth_ge dt.year dt.month
  exact ⟨h1, h2, h3, h4, (le_refl 1),
    (by omega : (1 : ℕ) ≤ daysInMonth dt.year dt.month)⟩

theorem dateSub_mk (y m e dd : ℕ) :
    dateSub ⟨y, m, e⟩ ⟨y, m, dd⟩ = (e : ℤ) - dd := by
  simp only [dateSub, toOrdinal]
  push_cast
  ring

theorem days_remaining_eq (dt : Date) (h : dt.valid) :
    days_remaining_in_month dt =
      (daysInMonth dt.year dt.month : ℤ) - dt.day + 1 := by
  unfold days_remaining_in_month
  rw [month_end_eq dt h]
  show dateSub ⟨dt.year, dt.month, daysInMonth dt.year dt.month⟩
    ⟨dt.year, dt.month, dt.day⟩ + 1 = _
  rw [dateSub_mk]

/-- C5: for every valid Gregorian date `day`, `month_end day` is the last
calendar day of `day`'s year and month: `month_end (month_start day)` keeps
the year and month of `day`, `month_end day` keeps them too and is a valid
date not exceeded by any valid date of the same month, its day lies in
`{28, 29, 30, 31}`, leap-year February is handled
(`month_end 2024-02-10 = 2024-02-29`, `month_end 2023-02-10 = 2023-02-28`),
and December rolls over to the next January correctly
(`month_end 2025-12-10 = 2025-12-31`). -/
theorem month_end_is_last_day (day : Date) (h : day.valid) :
    ((month_end (month_start day)).year = day.year ∧
      (month_end (month_start day)).month = day.month) ∧
    ((month_end day).year = day.year ∧ (month_end day).month = day.month ∧
      (month_end day).valid) ∧
    (∀ e : Date, e.valid → e.year = day.year → e.month = day.month →
      e.day ≤ (month_end day).day) ∧
    ((month_end day).day = 28 ∨ (month_end day).day = 29 ∨
      (month_end day).day = 30 ∨ (month_end day).day = 31) ∧
    month_end ⟨2024, 2, 10⟩ = ⟨2024, 2, 29⟩ ∧
    month_end ⟨2023, 2, 10⟩ = ⟨2023, 2, 28⟩ ∧
    month_end ⟨2025, 12, 10⟩ = ⟨2025, 12, 31⟩ := by
  have hs := month_start_valid day h
  have hse := month_end_eq _ hs
  have he := month_end_eq day h
  refine ⟨⟨by rw [hse]; rfl, by rw [hse]; rfl⟩,
    ⟨by rw [he], by rw [he], month_end_valid day h⟩,
    ?_, ?_, by decide, by decide, by decide⟩
  · intro e hev hy hm
    rw [he]
    obtain ⟨_, _, _, _, _, h6⟩ := hev
    rw [hy, hm] at h6
    exact h6
  · rw [he]
    exact daysInMonth_cases day.year day.month

/-- Witness for `month_end_is_last_day` at the concrete valid date
2026-01-15. -/
theorem month_end_is_last_day_witness :
    (Date.valid ⟨2026, 1, 15⟩) ∧ (month_end ⟨2026, 1, 15⟩).day = 31 := by
  have h : Date.valid ⟨2026, 1, 15⟩ := by decide
  refine ⟨h, ?_⟩
  have hth := month_end_is_last_day ⟨2026, 1, 15⟩ h
  have : (month_end ⟨2026, 1, 15⟩) = ⟨2026, 1, 31⟩ := by decide
  rw [this]

/-- C6: for every valid date `day`, `days_remaining_in_month day` equals
`dateSub (month_end day) day + 1` (the `(monthEnd - today).days + 1` of the
source), is at least 1, and equals exactly 1 on the last day of the
month. -/
theorem days_remaining_props (day : Date) (h : day.valid) :
    days_remaining_in_month day = dateSub (month_end day) day + 1 ∧
    1 ≤ days_remaining_in_month day ∧
    days_remaining_in_month (month_end day) = 1 := by
  refine ⟨rfl, ?_, ?_⟩
  · rw [days_remaining_eq day h]
    obtain ⟨_, _, _, _, _, h6⟩ := h
    omega
  · have hv : Date.valid ⟨day.year, day.month, daysInMonth day.year day.month⟩ := by
      have hv0 := month_end_valid day h
      rwa [month_end_eq day h] at hv0
    rw [month_end_eq day h, days_remaining_eq _ hv]
    show (daysInMonth day.year day.month : ℤ) - daysInMonth day.year day.month + 1 = 1
    ring

/-- Witness for `days_remaining_props` at the concrete valid date
2026-01-15. -/
theorem days_remaining_props_witness :
    (Date.valid ⟨2026, 1, 15⟩) ∧ 1 ≤ days_remaining_in_month ⟨2026, 1, 15⟩ :=
  ⟨by decide, (days_remaining_props ⟨2026, 1, 15⟩ (by decide)).2.1⟩

/-! ## Ledger store lemmas -/

/-- C10: whenever `ensure_unique_add` returns `false` (the trimmed item is
empty or already a member), the list it was given is returned completely
unchanged. -/
theorem ensure_unique_add_rejected_unchanged (lst : List String) (item : String)
    (h : (ensure_unique_add lst item).1 = false) :
    (ensure_unique_add lst item).2 = lst := by
  unfold ensure_unique_add at h ⊢
  by_cases h1 : pyStrip item = ""
  · simp [h1]
  · by_cases h2 : pyStrip item ∈ lst
    · simp [h1, h2]
    · simp [h1, h2] at h

/-- Witness for `ensure_unique_add_rejected_unchanged` on a rejected
duplicate. -/
theorem ensure_unique_add_rejected_unchanged_witness :
    (ensure_unique_add ["Luz"] "Luz").1 = false ∧
      (ensure_unique_add ["Luz"] "Luz").2 = ["Luz"] :=
  ⟨by decide, ensure_unique_add_rejected_unchanged ["Luz"] "Luz" (by decide)⟩

theorem matchPM_iff (p mk : String) (r : IncomeRec) :
    matchPM p mk r = true ↔ r.person = p ∧ r.month = mk := by
  simp [matchPM]

theorem countMatch_nil (p mk : String) : countMatch [] p mk = 0 := rfl

theorem countMatch_cons (r : IncomeRec) (l : List IncomeRec) (p mk : String) :
    countMatch (r :: l) p mk =
      (if r.person = p ∧ r.month = mk then 1 else 0) + countMatch l p mk := by
  by_cases h : r.person = p ∧ r.month = mk
  · rw [if_pos h]
    simp [countMatch, List.filter_cons, (matchPM_iff p mk r).mpr h]
    omega
  · rw [if_neg h]
    have hb : matchPM p mk r = false := by
      rw [← Bool.not_eq_true, matchPM_iff]
      exact h
    simp [countMatch, List.filter_cons, hb]

theorem setIncomeList_countMatch (l : List IncomeRec) (p : String) (a : ℤ)
    (mk p2 mk2 : String) :
    countMatch (setIncomeList l p a mk) p2 mk2 =
      if p2 = p ∧ mk2 = mk then max 1 (countMatch l p mk)
      else countMatch l p2 mk2 := by
  induction l with
  | nil =>
    by_cases hp : p2 = p ∧ mk2 = mk
    · rw [if_pos hp]
      obtain ⟨hp1, hp2⟩ := hp
      simp [setIncomeList, countMatch_cons, countMatch_nil, hp1, hp2]
    · rw [if_neg hp]
      have : ¬((⟨p, renderCents a, mk⟩ : IncomeRec).person = p2 ∧
          (⟨p, renderCents a, mk⟩ : IncomeRec).month = mk2) := by
        intro hc
        exact hp ⟨hc.1.symm, hc.2.symm⟩
      simp [setIncomeList, countMatch_cons, countMatch_nil, this]
  | cons r t ih =>
    by_cases hr : r.person = p ∧ r.month = mk
    · simp only [setIncomeList, if_pos hr]
      by_cases hp : p2 = p ∧ mk2 = mk
      · rw [if_pos hp]
        obtain ⟨hp1, hp2⟩ := hp
        subst hp1; subst hp2
        rw [countMatch_cons, countMatch_cons]
        simp only [if_pos hr]
        rw [max_eq_right (by omega : 1 ≤ 1 + countMatch t p2 mk2)]
      · rw [if_neg hp]
        rw [countMatch_cons, countMatch_cons]
    · simp only [setIncomeList, if_neg hr]
      rw [countMatch_cons, ih]
      by_cases hp : p2 = p ∧ mk2 = mk
      · rw [if_pos hp, if_pos hp]
        obtain ⟨hp1, hp2⟩ := hp
        subst hp1; subst hp2
        rw [countMatch_cons, if_neg hr]
        omega
      · rw [if_neg hp, if_neg hp, countMatch_cons]

theorem setIncomeList_filter (l : List IncomeRec) (p : String) (a : ℤ) (mk : String)
    (h : countMatch l p mk ≤ 1) :
    (setIncomeList l p a mk).filter (matchPM p mk) = [⟨p, renderCents a, mk⟩] := by
  induction l with
  | nil =>
    show List.filter (matchPM p mk) [(⟨p, renderCents a, mk⟩ : IncomeRec)] =
      [(⟨p, renderCents a, mk⟩ : IncomeRec)]
    rw [List.filter_cons,
      if_pos (show matchPM p mk ⟨p, renderCents a, mk⟩ = true from
        (matchPM_iff p mk _).mpr ⟨rfl, rfl⟩)]
    rfl
  | cons r t ih =>
    by_cases hr : r.person = p ∧ r.month = mk
    · simp only [setIncomeList, if_pos hr]
      have h0 : countMatch (r :: t) p mk = 1 + countMatch t p mk := by
        rw [countMatch_cons, if_pos hr]
      have h1 : countMatch t p mk = 0 := by omega
      have h2 : t.filter (matchPM p mk) = [] := List.length_eq_zero.mp h1
      rw [List.filter_cons,
        if_pos (show matchPM p mk { r with amount := renderCents a } = true from
          (matchPM_iff p mk _).mpr hr), h2]
      obtain ⟨hp, hm⟩ := hr
      rw [show ({ r with amount := renderCents a } : IncomeRec) =
        ⟨p, renderCents a, mk⟩ from by rw [← hp, ← hm]]
    · simp only [setIncomeList, if_neg hr]
      have hb : matchPM p mk r = false := by
        rw [← Bool.not_eq_true, matchPM_iff]
        exact hr
      rw [List.filter_cons, if_neg (by rw [hb]; exact Bool.false_ne_true)]
      apply ih
      rw [countMatch_cons, if_neg hr] at h
      omega

/-- C2: for every ledger state satisfying the at-most-one-record-per-
`(person, month)` invariant, `set_monthly_income` preserves the invariant,
and calling it twice for the same `(person, monthKey)` with different
amounts leaves exactly one record for that pair, holding the amount of the
second call. -/
theorem set_monthly_income_upsert (st : LedgerState) (p mk : String) (a1 a2 : ℤ)
    (h : incomeInv st.monthly_incomes) :
    incomeInv (set_monthly_income st p a1 mk).monthly_incomes ∧
    ((set_monthly_income (set_monthly_income st p a1 mk) p a2 mk).monthly_incomes.filter
      (matchPM p mk)) = [⟨p, renderCents a2, mk⟩] := by
  constructor
  · intro p2 mk2
    show countMatch (setIncomeList st.monthly_incomes p a1 mk) p2 mk2 ≤ 1
    rw [setIncomeList_countMatch]
    split
    · exact max_le le_rfl (h p mk)
    · exact h p2 mk2
  · show (setIncomeList (setIncomeList st.monthly_incomes p a1 mk) p a2 mk).filter _ = _
    apply setIncomeList_filter
    rw [setIncomeList_countMatch, if_pos ⟨rfl, rfl⟩]
    exact max_le le_rfl (h p mk)

/-- Witness for `set_monthly_income_upsert`: two submissions for
`("Ana", "2026-01")` on the empty ledger leave one record with the second
amount. -/
theorem set_monthly_income_upsert_witness :
    incomeInv (LedgerState.mk [] [] [] [] []).monthly_incomes ∧
    ((set_monthly_income (set_monthly_income (LedgerState.mk [] [] [] [] [])
        "Ana" 100000 "2026-01") "Ana" 150000 "2026-01").monthly_incomes.filter
      (matchPM "Ana" "2026-01")) = [⟨"Ana", renderCents 150000, "2026-01"⟩] :=
  ⟨fun p mk => by simp [countMatch],
   (set_monthly_income_upsert (LedgerState.mk [] [] [] [] []) "Ana" "2026-01"
      100000 150000 (fun p mk => by simp [countMatch])).2⟩

/-! ## Rounding lemmas -/

theorem divHalfEven_spec (num den : ℤ) (hden : 0 < den) :
    |(divHalfEven num den : ℚ) - (num : ℚ) / den| ≤ 1 / 2 ∧
    (|(divHalfEven num den : ℚ) - (num : ℚ) / den| = 1 / 2 →
      divHalfEven num den % 2 = 0) := by
  have hne : den ≠ 0 := ne_of_gt hden
  have hdQ : (0 : ℚ) < (den : ℚ) := by exact_mod_cast hden
  have hdQne : (den : ℚ) ≠ 0 := ne_of_gt hdQ
  have hmod := Int.ediv_add_emod num den
  have hr0 : 0 ≤ num % den := Int.emod_nonneg num hne
  have hrlt : num % den < den := Int.emod_lt_of_pos num hden
  have hr0Q : (0 : ℚ) ≤ ((num % den : ℤ) : ℚ) := by exact_mod_cast hr0
  have hrltQ : ((num % den : ℤ) : ℚ) < (den : ℚ) := by exact_mod_cast hrlt
  have hnum : (num : ℚ) = (den : ℚ) * ((num / den : ℤ) : ℚ) + ((num % den : ℤ) : ℚ) := by
    exact_mod_cast hmod.symm
  have hdiv : (num : ℚ) / den = ((num / den : ℤ) : ℚ) + ((num % den : ℤ) : ℚ) / den := by
    rw [hnum]
    field_simp
    ring
  simp only [divHalfEven]
  split_ifs with h1 h2 h3
  · have h1Q : 2 * ((num % den : ℤ) : ℚ) < (den : ℚ) := by exact_mod_cast h1
    have hdiff : ((num / den : ℤ) : ℚ) - (num : ℚ) / den =
        -(((num % den : ℤ) : ℚ) / den) := by
      rw [hdiv]; ring
    rw [hdiff, abs_neg, abs_of_nonneg (div_nonneg hr0Q hdQ.le)]
    constructor
    · rw [div_le_iff hdQ]
      linarith
    · intro habs
      exfalso
      rw [div_eq_iff hdQne] at habs
      linarith
  · have h2Q : (den : ℚ) < 2 * ((num % den : ℤ) : ℚ) := by exact_mod_cast h2
    have hdiff : ((num / den + 1 : ℤ) : ℚ) - (num : ℚ) / den =
        1 - ((num % den : ℤ) : ℚ) / den := by
      push_cast
      rw [hdiv]
      ring
    have hnn : (0 : ℚ) ≤ 1 - ((num % den : ℤ) : ℚ) / den := by
      rw [sub_nonneg, div_le_one hdQ]
      exact le_of_lt hrltQ
    rw [hdiff, abs_of_nonneg hnn]
    have hhalf : 1 / 2 < ((num % den : ℤ) : ℚ) / den := by
      rw [lt_div_iff hdQ]
      linarith
    constructor
    · linarith
    · intro habs
      exfalso
      linarith
  · have htie : 2 * (num % den) = den := by omega
    have htieQ : ((num % den : ℤ) : ℚ) / den = 1 / 2 := by
      rw [div_eq_iff hdQne]
      have h2r : (2 : ℚ) * ((num % den : ℤ) : ℚ) = (den : ℚ) := by exact_mod_cast htie
      linarith
    have hdiff : ((num / den : ℤ) : ℚ) - (num : ℚ) / den = -(1 / 2) := by
      rw [hdiv, htieQ]
      ring
    rw [hdiff, abs_neg, abs_of_nonneg (by norm_num : (0 : ℚ) ≤ 1 / 2)]
    exact ⟨le_refl _, fun _ => h3⟩
  · have htie : 2 * (num % den) = den := by omega
    have htieQ : ((num % den : ℤ) : ℚ) / den = 1 / 2 := by
      rw [div_eq_iff hdQne]
      have h2r : (2 : ℚ) * ((num % den : ℤ) : ℚ) = (den : ℚ) := by exact_mod_cast htie
      linarith
    have hdiff : ((num / den + 1 : ℤ) : ℚ) - (num : ℚ) / den = 1 / 2 := by
      push_cast
      rw [hdiv, htieQ]
      ring
    rw [hdiff, abs_of_nonneg (by norm_num : (0 : ℚ) ≤ 1 / 2)]
    refine ⟨le_refl _, fun _ => ?_⟩
    omega

theorem divHalfUpAway_neg (num den : ℤ) :
    divHalfUpAway (-num) den = -divHalfUpAway num den := by
  rw [divHalfUpAway, divHalfUpAway, Int.sign_neg, Int.natAbs_neg]
  ring

theorem divHalfUpAway_nonneg_eq (num den : ℤ) (h0 : 0 ≤ num) (hden : 0 < den) :
    divHalfUpAway num den =
      (((2 * num.natAbs + den.natAbs) / (2 * den.natAbs) : ℕ) : ℤ) := by
  rcases lt_or_eq_of_le h0 with hpos | hzero
  · rw [divHalfUpAway, Int.sign_eq_one_of_pos hpos, one_mul]
  · rw [← hzero]
    show Int.sign 0 * _ = _
    rw [Int.sign_zero, zero_mul]
    have hD : 0 < den.natAbs := by omega
    rw [show (0 : ℤ).natAbs = 0 from rfl]
    rw [Nat.div_eq_of_lt (by omega : 2 * 0 + den.natAbs < 2 * den.natAbs)]
    rfl

theorem halfUpNat_bounds (N D : ℕ) (hD : 0 < D) :
    2 * D * ((2 * N + D) / (2 * D)) ≤ 2 * N + D ∧
    2 * N + D < 2 * D * ((2 * N + D) / (2 * D)) + 2 * D := by
  have hdm := Nat.div_add_mod (2 * N + D) (2 * D)
  have hmlt : (2 * N + D) % (2 * D) < 2 * D := Nat.mod_lt _ (by omega)
  omega

theorem divHalfUpAway_spec_nonneg (num den : ℤ) (h0 : 0 ≤ num) (hden : 0 < den) :
    |(divHalfUpAway num den : ℚ) - (num : ℚ) / den| ≤ 1 / 2 ∧
    (|(divHalfUpAway num den : ℚ) - (num : ℚ) / den| = 1 / 2 →
      |(num : ℚ) / den| < |(divHalfUpAway num den : ℚ)|) := by
  have hnumQ : (num : ℚ) = (num.natAbs : ℚ) := by
    rw [Int.cast_natAbs]
    exact_mod_cast congrArg (fun z : ℤ => (z : ℚ)) (abs_of_nonneg h0).symm
  have hdenQ : (den : ℚ) = (den.natAbs : ℚ) := by
    rw [Int.cast_natAbs]
    exact_mod_cast congrArg (fun z : ℤ => (z : ℚ)) (abs_of_nonneg hden.le).symm
  have hDpos : 0 < den.natAbs := by omega
  have hDQ : (0 : ℚ) < (den.natAbs : ℚ) := by exact_mod_cast hDpos
  obtain ⟨b1, b2⟩ := halfUpNat_bounds num.natAbs den.natAbs hDpos
  rw [divHalfUpAway_nonneg_eq num den h0 hden, hnumQ, hdenQ]
  set k : ℕ := (2 * num.natAbs + den.natAbs) / (2 * den.natAbs) with hkdef
  have b1Q : 2 * (den.natAbs : ℚ) * (k : ℚ) ≤ 2 * (num.natAbs : ℚ) + den.natAbs := by
    exact_mod_cast b1
  have b2Q : 2 * (num.natAbs : ℚ) + (den.natAbs : ℚ) <
      2 * (den.natAbs : ℚ) * (k : ℚ) + 2 * den.natAbs := by exact_mod_cast b2
  have key : ((k : ℤ) : ℚ) - (num.natAbs : ℚ) / (den.natAbs : ℚ) =
      ((k : ℚ) * (den.natAbs : ℚ) - (num.natAbs : ℚ)) / (den.natAbs : ℚ) := by
    push_cast
    field_simp
  constructor
  · rw [key, abs_div, abs_of_pos hDQ, div_le_iff₀ hDQ, abs_le]
    constructor <;> linarith
  · intro habs
    rw [key, abs_div, abs_of_pos hDQ, div_eq_iff (ne_of_gt hDQ)] at habs
    have hup : (k : ℚ) * (den.natAbs : ℚ) - (num.natAbs : ℚ) =
        1 / 2 * (den.natAbs : ℚ) := by
      rcases (abs_eq (by positivity : (0 : ℚ) ≤ 1 / 2 * (den.natAbs : ℚ))).mp habs with
        he | he
      · exact he
      · exfalso
        linarith
    have hN0 : (0 : ℚ) ≤ (num.natAbs : ℚ) / (den.natAbs : ℚ) := by positivity
    have hk0 : (0 : ℚ) ≤ ((k : ℤ) : ℚ) := by positivity
    rw [abs_of_nonneg hN0, abs_of_nonneg hk0]
    push_cast
    rw [div_lt_iff₀ hDQ]
    linarith

theorem divHalfUpAway_spec (num den : ℤ) (hden : 0 < den) :
    |(divHalfUpAway num den : ℚ) - (num : ℚ) / den| ≤ 1 / 2 ∧
    (|(divHalfUpAway num den : ℚ) - (num : ℚ) / den| = 1 / 2 →
      |(num : ℚ) / den| < |(divHalfUpAway num den : ℚ)|) := by
  rcases le_or_lt 0 num with h0 | hneg
  · exact divHalfUpAway_spec_nonneg num den h0 hden
  · have hs := divHalfUpAway_spec_nonneg (-num) den (by omega) hden
    have hneg1 : divHalfUpAway (-num) den = -divHalfUpAway num den :=
      divHalfUpAway_neg num den
    have e1 : ((divHalfUpAway (-num) den : ℤ) : ℚ) - ((-num : ℤ) : ℚ) / den =
        -(((divHalfUpAway num den : ℤ) : ℚ) - (num : ℚ) / den) := by
      rw [hneg1]
      push_cast
      ring
    have e2 : |((-num : ℤ) : ℚ) / (den : ℚ)| = |(num : ℚ) / den| := by
      push_cast
      rw [neg_div, abs_neg]
    have e3 : |((divHalfUpAway (-num) den : ℤ) : ℚ)| =
        |((divHalfUpAway num den : ℤ) : ℚ)| := by
      rw [hneg1]
      push_cast
      rw [abs_neg]
    rw [e1, abs_neg, e2, e3] at hs
    exact hs

theorem quantize2HalfUp_spec (m e : ℤ) :
    |(quantize2HalfUp m e : ℚ) - (m : ℚ) * (10 : ℚ) ^ e * 100| ≤ 1 / 2 ∧
    (|(quantize2HalfUp m e : ℚ) - (m : ℚ) * (10 : ℚ) ^ e * 100| = 1 / 2 →
      |(m : ℚ) * (10 : ℚ) ^ e * 100| < |(quantize2HalfUp m e : ℚ)|) := by
  by_cases he : 0 ≤ e + 2
  · rw [quantize2HalfUp, if_pos he]
    have hpow : (m : ℚ) * (10 : ℚ) ^ e * 100 = ((m * 10 ^ (e + 2).toNat : ℤ) : ℚ) := by
      push_cast
      rw [show ((10 : ℚ)) ^ ((e + 2).toNat : ℕ) = (10 : ℚ) ^ ((e + 2 : ℤ)) from by
        rw [← zpow_natCast]
        congr 1
        omega]
      rw [zpow_add₀ (by norm_num : (10 : ℚ) ≠ 0)]
      norm_num
      ring
    rw [hpow, sub_self, abs_zero]
    refine ⟨by norm_num, fun hc => absurd hc (by norm_num)⟩
  · rw [quantize2HalfUp, if_neg he]
    have hs : (0 : ℤ) < 10 ^ (-(e + 2)).toNat := by positivity
    have hspec := divHalfUpAway_spec m _ hs
    have hval : (m : ℚ) * (10 : ℚ) ^ e * 100 =
        (m : ℚ) / ((10 ^ (-(e + 2)).toNat : ℤ) : ℚ) := by
      push_cast
      rw [show ((10 : ℚ)) ^ (((-(e + 2)).toNat : ℕ)) = (10 : ℚ) ^ ((-(e + 2) : ℤ)) from by
        rw [← zpow_natCast]
        congr 1
        omega]
      rw [div_eq_mul_inv, ← zpow_neg, neg_neg, zpow_add₀ (by norm_num : (10 : ℚ) ≠ 0)]
      norm_num
      ring
    rw [hval]
    exact hspec

/-- C4: `round2` (the function `d` composed of exact decimal parsing and
2-place `ROUND_HALF_UP` quantization) rounds to exactly 2 decimal places
with ties away from zero: `round2(0.005) = 0.01`, `round2(1.005) = 1.01`,
`round2(-0.005) = -0.01`; in general the cent value produced for an exact
input `m * 10 ^ e` is within half a cent of the exact value, and at an
exact half-cent tie the chosen cent value has strictly larger magnitude
than the exact value, i.e. ties go away from zero. -/
theorem round2_half_up_ties_away :
    d "0.005" = some 1 ∧ d "1.005" = some 101 ∧ d "-0.005" = some (-1) ∧
    (∀ m e : ℤ,
      |(quantize2HalfUp m e : ℚ) - (m : ℚ) * (10 : ℚ) ^ e * 100| ≤ 1 / 2 ∧
      (|(quantize2HalfUp m e : ℚ) - (m : ℚ) * (10 : ℚ) ^ e * 100| = 1 / 2 →
        |(m : ℚ) * (10 : ℚ) ^ e * 100| < |(quantize2HalfUp m e : ℚ)|)) :=
  ⟨by decide, by decide, by decide, quantize2HalfUp_spec⟩

/-- Witness for `round2_half_up_ties_away`: the half-cent bound and the
away-from-zero tie at the concrete input 0.005 = 5 * 10^-3. -/
theorem round2_half_up_ties_away_witness :
    |(quantize2HalfUp 5 (-3) : ℚ) - ((5 : ℤ) : ℚ) * (10 : ℚ) ^ ((-3 : ℤ)) * 100| ≤ 1 / 2 :=
  (round2_half_up_ties_away.2.2.2 5 (-3)).1

theorem days_remaining_pos (dt : Date) (h : dt.valid) :
    1 ≤ days_remaining_in_month dt := by
  rw [days_remaining_eq dt h]
  obtain ⟨_, _, _, _, _, h6⟩ := h
  omega

/-! ## Sort-key order lemmas -/

theorem charsLt_irrefl (l : List Char) : charsLt l l = false := by
  induction l with
  | nil => rfl
  | cons a t ih => simp [charsLt, ih]

theorem charsLt_trans (a b c : List Char) (h1 : charsLt a b = true)
    (h2 : charsLt b c = true) : charsLt a c = true := by
  induction a generalizing b c with
  | nil =>
    cases b with
    | nil => simp [charsLt] at h1
    | cons x xs =>
      cases c with
      | nil => simp [charsLt] at h2
      | cons y ys => simp [charsLt]
  | cons p ps ih =>
    cases b with
    | nil => simp [charsLt] at h1
    | cons x xs =>
      cases c with
      | nil => simp [charsLt] at h2
      | cons y ys =>
        simp only [charsLt, Bool.or_eq_true, Bool.and_eq_true, decide_eq_true_eq] at h1 h2 ⊢
        rcases h1 with h1 | ⟨h1e, h1r⟩ <;> rcases h2 with h2 | ⟨h2e, h2r⟩
        · exact Or.inl (lt_trans h1 h2)
        · exact Or.inl (h2e ▸ h1)
        · exact Or.inl (h1e ▸ h2)
        · exact Or.inr ⟨h1e.trans h2e, ih xs ys h1r h2r⟩

theorem charsLt_connex (a b : List Char) (h : a ≠ b) :
    charsLt a b = true ∨ charsLt b a = true := by
  induction a generalizing b with
  | nil =>
    cases b with
    | nil => exact absurd rfl h
    | cons y ys =>
      left
      simp [charsLt]
  | cons x xs ih =>
    cases b with
    | nil =>
      right
      simp [charsLt]
    | cons y ys =>
      rcases lt_trichotomy x y with hxy | hxy | hxy
      · left
        simp [charsLt, hxy]
      · subst hxy
        have hne : xs ≠ ys := fun he => h (he ▸ rfl)
        rcases ih ys hne with hr | hr
        · left
          simp [charsLt, hr]
        · right
          simp [charsLt, hr]
      · right
        simp [charsLt, hxy]

theorem charsLt_asymm (a b : List Char) (h : charsLt a b = true) :
    charsLt b a = false := by
  by_contra hc
  rw [Bool.not_eq_false] at hc
  have := charsLt_trans a b a h hc
  rw [charsLt_irrefl] at this
  exact Bool.false_ne_true this

theorem keyLe_of_keyLt (x y : String) (h : keyLt x y = true) : keyLe x y :=
  charsLt_asymm _ _ h

theorem keyLe_of_not_keyLt (x y : String) (h : ¬keyLt x y = true) : keyLe y x :=
  (Bool.not_eq_true (keyLt x y)).mp h

theorem keyLe_trans (a b c : String) (h1 : keyLe a b) (h2 : keyLe b c) :
    keyLe a c := by
  unfold keyLe keyLt at h1 h2 ⊢
  by_contra hc
  rw [Bool.not_eq_false] at hc
  by_cases he1 : (strLower c).data = (strLower b).data
  · rw [he1] at hc
    rw [hc] at h1
    simp at h1
  · rcases charsLt_connex _ _ he1 with hr | hr
    · rw [hr] at h2
      simp at h2
    · have h4 := charsLt_trans _ _ _ hr hc
      rw [h4] at h1
      simp at h1

/-! ## Insertion-sort lemmas -/

theorem insertByLower_perm (x : String) (l : List String) :
    (insertByLower x l).Perm (x :: l) := by
  induction l with
  | nil => exact List.Perm.refl _
  | cons y ys ih =>
    simp only [insertByLower]
    by_cases h : keyLt x y = true
    · rw [if_pos h]
    · rw [if_neg h]
      exact (ih.cons y).trans (List.Perm.swap x y ys)

theorem insertByLower_sorted (x : String) (l : List String)
    (h : List.Pairwise keyLe l) : List.Pairwise keyLe (insertByLower x l) := by
  induction l with
  | nil => exact List.pairwise_singleton keyLe x
  | cons y ys ih =>
    rw [List.pairwise_cons] at h
    obtain ⟨hy, hys⟩ := h
    simp only [insertByLower]
    by_cases hxy : keyLt x y = true
    · rw [if_pos hxy]
      refine List.pairwise_cons.mpr ⟨?_, List.pairwise_cons.mpr ⟨hy, hys⟩⟩
      intro z hz
      rcases List.mem_cons.mp hz with rfl | hz2
      · exact keyLe_of_keyLt x z hxy
      · exact keyLe_trans x y z (keyLe_of_keyLt x y hxy) (hy z hz2)
    · rw [if_neg hxy]
      refine List.pairwise_cons.mpr ⟨?_, ih hys⟩
      intro z hz
      have hz' := (insertByLower_perm x ys).mem_iff.mp hz
      rcases List.mem_cons.mp hz' with rfl | hz2
      · exact keyLe_of_not_keyLt z y hxy
      · exact hy z hz2

theorem foldl_insert_perm (l acc : List String) :
    (l.foldl (fun a x => insertByLower x a) acc).Perm (acc ++ l) := by
  induction l generalizing acc with
  | nil => simp
  | cons x t ih =>
    simp only [List.foldl_cons]
    exact ((ih (insertByLower x acc)).trans
      (((insertByLower_perm x acc).append_right t).trans List.perm_middle.symm))

theorem foldl_insert_sorted (l acc : List String) (h : List.Pairwise keyLe acc) :
    List.Pairwise keyLe (l.foldl (fun a x => insertByLower x a) acc) := by
  induction l generalizing acc with
  | nil => exact h
  | cons x t ih => exact ih _ (insertByLower_sorted x acc h)

theorem sortByLower_perm (l : List String) : (sortByLower l).Perm l := by
  have h := foldl_insert_perm l []
  simpa [sortByLower] using h

theorem sortByLower_sorted (l : List String) : List.Pairwise keyLe (sortByLower l) :=
  foldl_insert_sorted l [] List.Pairwise.nil

/-! ## Claim theorems for the store add operation and the end-to-end run -/

/-- C3 counterexample: the duplicate check of `ensure_unique_add` is exact
(case-sensitive), not case-insensitive: adding "Comida" and then " comida "
returns `true` both times and leaves two entries, not `true` then `false`
with one entry as the claim states. -/
theorem addCategory_case_counterexample :
    ensure_unique_add [] "Comida" = (true, ["Comida"]) ∧
    ensure_unique_add ["Comida"] " comida " = (true, ["Comida", "comida"]) ∧
    ¬ ((ensure_unique_add ["Comida"] " comida ").1 = false ∧
       (ensure_unique_add ["Comida"] " comida ").2.length = 1) := by decide

/-- C3 amended: `ensure_unique_add` trims its argument, rejects an empty
result, rejects an exact (case-sensitive) duplicate of an existing entry,
and otherwise inserts and re-sorts by lowercased key, returning whether
insertion happened: the flag is true exactly when the trimmed item is
nonempty and not already a member, a rejected call returns the list
unchanged, and an accepting call returns a permutation of the trimmed item
consed onto the list, pairwise sorted by the case-insensitive key; calling
it on `[]` with "Comida" and then on the result with " comida " returns
`true` twice and the final list has the two entries "Comida" and
"comida". -/
theorem addCategory_amended (lst : List String) (item : String) :
    ((ensure_unique_add lst item).1 = true ↔
      (pyStrip item ≠ "" ∧ pyStrip item ∉ lst)) ∧
    ((ensure_unique_add lst item).2).Perm
      (if (ensure_unique_add lst item).1 then pyStrip item :: lst else lst) ∧
    ((ensure_unique_add lst item).1 = false → (ensure_unique_add lst item).2 = lst) ∧
    ((ensure_unique_add lst item).1 = true →
      List.Pairwise keyLe (ensure_unique_add lst item).2) ∧
    ensure_unique_add [] "Comida" = (true, ["Comida"]) ∧
    ensure_unique_add ["Comida"] " comida " = (true, ["Comida", "comida"]) := by
  by_cases h1 : pyStrip item = ""
  · have he : ensure_unique_add lst item = (false, lst) := by
      simp [ensure_unique_add, h1]
    rw [he]
    exact ⟨by simp [h1], by simp, fun _ => rfl, by simp, by decide, by decide⟩
  · by_cases h2 : pyStrip item ∈ lst
    · have he : ensure_unique_add lst item = (false, lst) := by
        simp [ensure_unique_add, h1, h2]
      rw [he]
      exact ⟨by simp [h2], by simp, fun _ => rfl, by simp, by decide, by decide⟩
    · have he : ensure_unique_add lst item =
          (true, sortByLower (lst ++ [pyStrip item])) := by
        simp [ensure_unique_add, h1, h2]
      rw [he]
      refine ⟨by simp [h1, h2], ?_, ?_, ?_, by decide, by decide⟩
      · show (sortByLower (lst ++ [pyStrip item])).Perm
          (if True then pyStrip item :: lst else lst)
        rw [if_pos trivial]
        exact (sortByLower_perm (lst ++ [pyStrip item])).trans
          (List.perm_append_singleton (pyStrip item) lst)
      · intro hc
        exact absurd hc (by simp)
      · intro _
        exact sortByLower_sorted (lst ++ [pyStrip item])

/-- Witness for `addCategory_amended` at the concrete call adding " Sal "
to `["Pan"]`. -/
theorem addCategory_amended_witness :
    ((ensure_unique_add ["Pan"] " Sal ").1 = true ↔
      (pyStrip " Sal " ≠ "" ∧ pyStrip " Sal " ∉ ["Pan"])) ∧
    ((ensure_unique_add ["Pan"] " Sal ").2).Perm
      (if (ensure_unique_add ["Pan"] " Sal ").1 then pyStrip " Sal " :: ["Pan"]
       else ["Pan"]) ∧
    ((ensure_unique_add ["Pan"] " Sal ").1 = false →
      (ensure_unique_add ["Pan"] " Sal ").2 = ["Pan"]) ∧
    ((ensure_unique_add ["Pan"] " Sal ").1 = true →
      List.Pairwise keyLe (ensure_unique_add ["Pan"] " Sal ").2) ∧
    ensure_unique_add [] "Comida" = (true, ["Comida"]) ∧
    ensure_unique_add ["Comida"] " comida " = (true, ["Comida", "comida"]) :=
  addCategory_amended ["Pan"] " Sal "

/-- C1: on the spec's end-to-end example state evaluated at
`today = 2026-01-15`, `totals_for_month` yields base income 50000.00,
extra income 2000.00 and expenses 15000.00 (the 2025-12-20 expense is
excluded from the month window), and `remaining_and_per_day` yields
remaining 37000.00, per-day 2176.47 and 17 days left (all amounts here in
cents). -/
theorem end_to_end_example :
    totals_for_month exState ⟨2026, 1, 15⟩ = some (5000000, 200000, 1500000) ∧
    remaining_and_per_day exState ⟨2026, 1, 15⟩ = some (3700000, 217647, 17) := by
  constructor
  · decide
  · decide

/-- C7 counterexample: on the ledger holding a single 0.05 monthly income
for 2026-01, evaluated on 2026-01-30 (2 days left), the source computes a
per-day figure of 0.02 (half-even quantization of 0.025), while `round2`
(half-up, ties away from zero) of remaining/daysLeft = 0.05/2 is 0.03: the
per-day figure is not `round2(remaining / daysLeft)`. -/
theorem per_day_not_round2 :
    remaining_and_per_day tieState ⟨2026, 1, 30⟩ = some (5, 2, 2) ∧
    divHalfUpAway 5 2 = 3 ∧
    ¬ (2 : ℤ) = divHalfUpAway 5 2 := by decide

/-- C7 amended: if `daysLeft` is 0 the guarded per-day expression yields
exactly 0 rather than an error, and in `remaining_and_per_day` the computed
`daysLeft` is at least 1 and the per-day figure is remaining/daysLeft
quantized to 2 decimal places with round-half-even (the `Decimal` context
default), which is within half a cent of the exact quotient. -/
theorem per_day_guarded_half_even (st : LedgerState) (today : Date)
    (h : today.valid) (r p dl : ℤ)
    (heq : remaining_and_per_day st today = some (r, p, dl)) :
    (∀ r0 : ℤ, perDayCalc r0 0 = 0) ∧
    1 ≤ dl ∧
    p = divHalfEven r dl ∧
    |(p : ℚ) - (r : ℚ) / dl| ≤ 1 / 2 ∧
    (|(p : ℚ) - (r : ℚ) / dl| = 1 / 2 → p % 2 = 0) := by
  have hguard : ∀ r0 : ℤ, perDayCalc r0 0 = 0 := by
    intro r0
    simp [perDayCalc]
  rcases htot : totals_for_month st today with _ | ⟨⟨base, extra, exp⟩⟩
  · rw [remaining_and_per_day, htot] at heq
    exact absurd heq (by simp)
  · rw [remaining_and_per_day, htot] at heq
    simp only [Option.some.injEq, Prod.mk.injEq] at heq
    obtain ⟨hr, hp, hdl⟩ := heq
    have hdl1 : 1 ≤ dl := by
      rw [← hdl]
      exact days_remaining_pos today h
    have hpe : p = divHalfEven r dl := by
      rw [← hp, ← hr, ← hdl]
      rw [perDayCalc, if_pos (by omega : (0 : ℤ) < days_remaining_in_month today)]
    have hspec := divHalfEven_spec r dl (by omega)
    rw [← hpe] at hspec
    exact ⟨hguard, hdl1, hpe, hspec.1, hspec.2⟩

/-! ## Digit and character run lemmas -/

theorem valOfRev_natDigitsRevAux (fuel : ℕ) :
    ∀ n, n ≤ fuel → valOfRev (natDigitsRevAux fuel n) = n := by
  induction fuel with
  | zero =>
    intro n h
    have h0 : n = 0 := by omega
    subst h0
    rfl
  | succ f ih =>
    intro n h
    by_cases h0 : n = 0
    · subst h0
      rfl
    · rw [natDigitsRevAux, if_neg h0, valOfRev,
        ih (n / 10) (by
          have := Nat.div_lt_self (Nat.pos_of_ne_zero h0) (by norm_num : 1 < 10)
          omega)]
      exact Nat.mod_add_div n 10

theorem natDigitsRevAux_lt (fuel : ℕ) :
    ∀ n, ∀ k ∈ natDigitsRevAux fuel n, k < 10 := by
  induction fuel with
  | zero =>
    intro n k hk
    simp [natDigitsRevAux] at hk
  | succ f ih =>
    intro n k hk
    rw [natDigitsRevAux] at hk
    by_cases h0 : n = 0
    · rw [if_pos h0] at hk
      simp at hk
    · rw [if_neg h0] at hk
      rcases List.mem_cons.mp hk with rfl | hk2
      · exact Nat.mod_lt n (by norm_num)
      · exact ih (n / 10) k hk2

theorem digitChar_facts (k : ℕ) (h : k < 10) :
    digitVal (digitChar k) = k ∧ isDigitC (digitChar k) = true := by
  interval_cases k <;> exact ⟨by decide, by decide⟩

theorem isDigitC_props (c : Char) (h : isDigitC c = true) :
    c ≠ ',' ∧ c ≠ '.' ∧ c ≠ '$' ∧ c ≠ '-' ∧ c ≠ '+' ∧ c ≠ 'e' ∧ c ≠ 'E' ∧
      isSpaceC c = false := by
  have hn : 48 ≤ c.toNat ∧ c.toNat ≤ 57 := by
    simpa [isDigitC] using h
  have hs : isSpaceC c = false := by
    by_contra hs1
    rw [Bool.not_eq_false] at hs1
    simp only [isSpaceC, Bool.or_eq_true, decide_eq_true_eq] at hs1
    rcases hs1 with ((((rfl | rfl) | rfl) | rfl) | rfl) | rfl <;>
      exact absurd hn (by decide)
  exact ⟨fun he => absurd (he ▸ hn) (by decide),
    fun he => absurd (he ▸ hn) (by decide),
    fun he => absurd (he ▸ hn) (by decide),
    fun he => absurd (he ▸ hn) (by decide),
    fun he => absurd (he ▸ hn) (by decide),
    fun he => absurd (he ▸ hn) (by decide),
    fun he => absurd (he ▸ hn) (by decide), hs⟩

theorem natToChars_digits (n : ℕ) : ∀ c ∈ natToChars n, isDigitC c = true := by
  intro c hc
  rw [natToChars] at hc
  by_cases h0 : n = 0
  · rw [if_pos h0] at hc
    simp at hc
    subst hc
    decide
  · rw [if_neg h0] at hc
    simp only [List.mem_map, List.mem_reverse] at hc
    obtain ⟨k, hk, rfl⟩ := hc
    exact (digitChar_facts k (natDigitsRevAux_lt n n k hk)).2

theorem natToChars_ne_nil (n : ℕ) : natToChars n ≠ [] := by
  rw [natToChars]
  by_cases h0 : n = 0
  · rw [if_pos h0]
    exact List.cons_ne_nil _ _
  · rw [if_neg h0]
    obtain ⟨f, rfl⟩ : ∃ f, n = f + 1 := ⟨n - 1, by omega⟩
    rw [natDigitsRev, natDigitsRevAux, if_neg h0]
    simp

theorem natOfDigits_foldl_acc (l : List Char) : ∀ acc : ℕ,
    l.foldl (fun a c => 10 * a + digitVal c) acc =
      acc * 10 ^ l.length + natOfDigits l := by
  induction l with
  | nil =>
    intro acc
    simp [natOfDigits]
  | cons c t ih =>
    intro acc
    show t.foldl _ (10 * acc + digitVal c) = acc * 10 ^ (c :: t).length +
      natOfDigits (c :: t)
    rw [ih (10 * acc + digitVal c),
      show natOfDigits (c :: t) = t.foldl (fun a x => 10 * a + digitVal x)
        (10 * 0 + digitVal c) from rfl,
      ih (10 * 0 + digitVal c), List.length_cons]
    ring

theorem natOfDigits_append (A B : List Char) :
    natOfDigits (A ++ B) = natOfDigits A * 10 ^ B.length + natOfDigits B := by
  show (A ++ B).foldl (fun a c => 10 * a + digitVal c) 0 =
    natOfDigits A * 10 ^ B.length + natOfDigits B
  rw [List.foldl_append]
  exact natOfDigits_foldl_acc B (natOfDigits A)

theorem natOfDigits_map_rev (l : List ℕ) (h : ∀ k ∈ l, k < 10) :
    natOfDigits ((l.reverse).map digitChar) = valOfRev l := by
  induction l with
  | nil => rfl
  | cons k t ih =>
    rw [List.reverse_cons, List.map_append, natOfDigits_append,
      ih (fun x hx => h x (List.mem_cons_of_mem k hx)), valOfRev]
    have hd := (digitChar_facts k (h k (List.mem_cons_self k t))).1
    simp [natOfDigits, hd]
    ring

theorem natOfDigits_natToChars (n : ℕ) : natOfDigits (natToChars n) = n := by
  rw [natToChars]
  by_cases h0 : n = 0
  · rw [if_pos h0, h0]
    decide
  · rw [if_neg h0]
    rw [show natDigitsRev n = natDigitsRevAux n n from rfl,
      natOfDigits_map_rev _ (natDigitsRevAux_lt n n)]
    exact valOfRev_natDigitsRevAux n n le_rfl

theorem natOfDigits_twoDigit (r : ℕ) (h : r < 100) :
    natOfDigits (twoDigitChars r) = r := by
  have h1 : r / 10 < 10 := by omega
  have h2 : r % 10 < 10 := Nat.mod_lt _ (by norm_num)
  simp [twoDigitChars, natOfDigits, (digitChar_facts _ h1).1,
    (digitChar_facts _ h2).1]
  omega

theorem twoDigitChars_digits (r : ℕ) (h : r < 100) :
    ∀ c ∈ twoDigitChars r, isDigitC c = true := by
  intro c hc
  have h1 : r / 10 < 10 := by omega
  have h2 : r % 10 < 10 := Nat.mod_lt _ (by norm_num)
  rcases List.mem_cons.mp hc with rfl | hc2
  · exact (digitChar_facts _ h1).2
  · rcases List.mem_cons.mp hc2 with rfl | hc3
    · exact (digitChar_facts _ h2).2
    · simp at hc3

/-! ## Character-run parsing lemmas -/

theorem takeDigits_append (A B : List Char) (h : ∀ c ∈ A, isDigitC c = true) :
    takeDigits (A ++ B) = (A ++ (takeDigits B).1, (takeDigits B).2) := by
  induction A with
  | nil => simp [takeDigits]
  | cons c t ih =>
    have hc := h c (List.mem_cons_self c t)
    have ht : ∀ x ∈ t, isDigitC x = true := fun x hx => h x (List.mem_cons_of_mem c hx)
    simp [takeDigits, hc, ih ht]

theorem takeDigits_all (l : List Char) (h : ∀ c ∈ l, isDigitC c = true) :
    takeDigits l = (l, []) := by
  have h2 := takeDigits_append l [] h
  simpa [takeDigits] using h2

theorem takeDigits_not_digit (c : Char) (r : List Char) (h : isDigitC c = false) :
    takeDigits (c :: r) = ([], c :: r) := by
  simp [takeDigits, h]

theorem dropWhile_isSpaceC_eq (l : List Char) (h : ∀ c ∈ l, isSpaceC c = false) :
    l.dropWhile isSpaceC = l := by
  cases l with
  | nil => rfl
  | cons c t =>
    rw [List.dropWhile_cons]
    simp [h c (List.mem_cons_self c t)]

theorem stripWS_eq (l : List Char) (h : ∀ c ∈ l, isSpaceC c = false) :
    stripWS l = l := by
  unfold stripWS
  rw [dropWhile_isSpaceC_eq l h,
    dropWhile_isSpaceC_eq _ (fun c hc => h c (List.mem_reverse.mp hc)),
    List.reverse_reverse]

theorem map_noComma_eq (l : List Char) (h : ∀ c ∈ l, c ≠ ',') :
    l.map (fun c => if c = ',' then '.' else c) = l := by
  induction l with
  | nil => rfl
  | cons c t ih =>
    rw [List.map_cons, if_neg (h c (List.mem_cons_self c t)),
      ih (fun x hx => h x (List.mem_cons_of_mem c hx))]

theorem group3Rev_filter : ∀ l : List Char,
    (group3Rev l).filter (fun c => !(c = '$' || c = ',')) =
      l.filter (fun c => !(c = '$' || c = ','))
  | [] => rfl
  | [a] => rfl
  | [a, b] => rfl
  | [a, b, c] => rfl
  | a :: b :: c :: d :: rest => by
    have ih := group3Rev_filter (d :: rest)
    simp only [group3Rev]
    simp [List.filter_cons] at ih ⊢
    rw [ih]

theorem parseCoeff_digits_dot (I F : List Char) (hI : I ≠ [])
    (hdI : ∀ c ∈ I, isDigitC c = true) (hdF : ∀ c ∈ F, isDigitC c = true) :
    parseCoeff (I ++ '.' :: F) = some (natOfDigits (I ++ F), F.length, []) := by
  have h1 : takeDigits (I ++ '.' :: F) = (I, '.' :: F) := by
    rw [takeDigits_append I ('.' :: F) hdI, takeDigits_not_digit '.' F (by decide)]
    simp
  have h2 : takeDigits F = (F, []) := takeDigits_all F hdF
  unfold parseCoeff
  rw [h1]
  show (if ('.' : Char) = '.' then
      let fp := takeDigits F
      if I = [] ∧ fp.1 = [] then none
      else some (natOfDigits (I ++ fp.1), (fp.1).length, fp.2)
    else if I = [] then none
    else some (natOfDigits I, 0, '.' :: F)) = _
  rw [if_pos (rfl : ('.' : Char) = '.'), h2]
  show (if I = [] ∧ F = [] then none
    else some (natOfDigits (I ++ F), F.length, [])) = _
  rw [if_neg (fun hc => hI hc.1)]

theorem parseDecimalChars_core (I F : List Char) (hI : I ≠ [])
    (hdI : ∀ c ∈ I, isDigitC c = true) (hdF : ∀ c ∈ F, isDigitC c = true) :
    parseDecimalChars (I ++ '.' :: F) =
      some ((natOfDigits (I ++ F) : ℤ), -(F.length : ℤ)) := by
  have hpc := parseCoeff_digits_dot I F hI hdI hdF
  obtain ⟨c0, I', rfl⟩ : ∃ c0 I', I = c0 :: I' := by
    cases I with
    | nil => exact absurd rfl hI
    | cons a b => exact ⟨a, b, rfl⟩
  have hc0 := hdI c0 (List.mem_cons_self c0 I')
  obtain ⟨_, _, _, hm, hp, _, _, _⟩ := isDigitC_props c0 hc0
  simp only [parseDecimalChars, splitSign, List.cons_append]
  rw [if_neg hp, if_neg hm]
  simp only [← List.cons_append, hpc]
  simp

theorem parseDecimalChars_core_neg (I F : List Char) (hI : I ≠ [])
    (hdI : ∀ c ∈ I, isDigitC c = true) (hdF : ∀ c ∈ F, isDigitC c = true) :
    parseDecimalChars ('-' :: (I ++ '.' :: F)) =
      some (-(natOfDigits (I ++ F) : ℤ), -(F.length : ℤ)) := by
  have hpc := parseCoeff_digits_dot I F hI hdI hdF
  simp only [parseDecimalChars, splitSign]
  simp [hpc]

theorem d_signed_digits (neg : Prop) [Decidable neg] (I F : List Char) (hI : I ≠ [])
    (hdI : ∀ c ∈ I, isDigitC c = true) (hdF : ∀ c ∈ F, isDigitC c = true) :
    d ⟨(if neg then ['-'] else []) ++ I ++ '.' :: F⟩ =
      some (quantize2HalfUp ((if neg then -1 else 1) * (natOfDigits (I ++ F) : ℤ))
        (-(F.length : ℤ))) := by
  have hns : ∀ L, (∀ c ∈ L, isSpaceC c = false) →
      d ⟨L⟩ = (match parseDecimalChars L with
        | none => none
        | some (m, e) => some (quantize2HalfUp m e)) := by
    intro L hL
    show (match parseDecimalChars (stripWS (⟨L⟩ : String).data) with
      | none => none
      | some (m, e) => some (quantize2HalfUp m e)) = _
    rw [show (⟨L⟩ : String).data = L from rfl, stripWS_eq L hL]
  have hdig : ∀ c ∈ I ++ '.' :: F, isSpaceC c = false := by
    intro c hc
    rcases List.mem_append.mp hc with hi | hc2
    · exact (isDigitC_props c (hdI c hi)).2.2.2.2.2.2.2
    · rcases List.mem_cons.mp hc2 with rfl | hf
      · decide
      · exact (isDigitC_props c (hdF c hf)).2.2.2.2.2.2.2
  by_cases hn : neg
  · rw [if_pos hn, if_pos hn]
    rw [show (['-'] ++ I ++ '.' :: F) = '-' :: (I ++ '.' :: F) from rfl]
    rw [hns ('-' :: (I ++ '.' :: F)) (by
      intro c hc
      rcases List.mem_cons.mp hc with rfl | hc2
      · decide
      · exact hdig c hc2)]
    rw [parseDecimalChars_core_neg I F hI hdI hdF]
    norm_num
  · rw [if_neg hn, if_neg hn]
    rw [show ([] ++ I ++ '.' :: F) = I ++ '.' :: F from rfl]
    rw [hns (I ++ '.' :: F) hdig, parseDecimalChars_core I F hI hdI hdF]
    norm_num

theorem filter_strip_q_digits (l : List Char) (h : ∀ c ∈ l, isDigitC c = true) :
    l.filter (fun c => !(c = '$' || c = ',')) = l := by
  rw [List.filter_eq_self]
  intro c hc
  obtain ⟨h1, _, h3, _⟩ := isDigitC_props c (h c hc)
  simp [h1, h3]

theorem stripCurrency_fmt_data (n : ℤ) :
    (stripCurrency (fmt_money n)).data =
      (if n < 0 then ['-'] else []) ++ natToChars (n.natAbs / 100) ++
        '.' :: twoDigitChars (n.natAbs % 100) := by
  have hI := natToChars_digits (n.natAbs / 100)
  have hF := twoDigitChars_digits (n.natAbs % 100) (Nat.mod_lt _ (by norm_num))
  show (fmtMoneyChars n).filter (fun c => !(c = '$' || c = ',')) = _
  rw [fmtMoneyChars, List.filter_cons_of_neg (by decide), List.filter_append,
    List.filter_append]
  have hS : List.filter (fun c => !(c = '$' || c = ','))
      (if n < 0 then ['-'] else []) = (if n < 0 then ['-'] else []) := by
    by_cases hn : n < 0
    · rw [if_pos hn]
      decide
    · rw [if_neg hn]
      rfl
  rw [hS, List.filter_reverse, group3Rev_filter, List.filter_reverse,
    List.reverse_reverse, filter_strip_q_digits _ hI,
    List.filter_cons_of_pos (by decide), filter_strip_q_digits _ hF]

/-! ## Numeric-grammar characterization of the decimal parser -/

theorem takeDigits_spec (cs : List Char) :
    cs = (takeDigits cs).1 ++ (takeDigits cs).2 ∧
    (∀ c ∈ (takeDigits cs).1, isDigitC c = true) ∧
    (∀ c r, (takeDigits cs).2 = c :: r → isDigitC c = false) := by
  induction cs with
  | nil =>
    refine ⟨rfl, by simp [takeDigits], ?_⟩
    intro c r h
    simp [takeDigits] at h
  | cons a t ih =>
    obtain ⟨ih1, ih2, ih3⟩ := ih
    by_cases ha : isDigitC a = true
    · rw [show takeDigits (a :: t) = (a :: (takeDigits t).1, (takeDigits t).2) from by
        simp [takeDigits, ha]]

      refine ⟨?_, ?_, ih3⟩
      · show a :: t = a :: ((takeDigits t).1 ++ (takeDigits t).2)
        rw [← ih1]
      · intro c hc
        rcases List.mem_cons.mp hc with rfl | hc2
        · exact ha
        · exact ih2 c hc2
    · rw [takeDigits_not_digit a t ((Bool.not_eq_true _).mp ha)]
      refine ⟨rfl, by simp, ?_⟩
      intro c r he
      injection he with he1 he2
      subst he1
      exact (Bool.not_eq_true _).mp ha

theorem takeDigits_stops (ex : List Char)
    (hh : ∀ c r, ex = c :: r → isDigitC c = false) :
    takeDigits ex = ([], ex) := by
  cases ex with
  | nil => rfl
  | cons c r => exact takeDigits_not_digit c r (hh c r rfl)

theorem parseCoeff_body (body ex : List Char) (hb : NumericBody body)
    (hexh : ∀ c r, ex = c :: r → isDigitC c = false ∧ c ≠ '.') :
    ∃ coeff scale, parseCoeff (body ++ ex) = some (coeff, scale, ex) := by
  have hexTD : takeDigits ex = ([], ex) :=
    takeDigits_stops ex (fun c r he => (hexh c r he).1)
  rcases hb with ⟨hne, hdig⟩ | ⟨ip, fp, rfl, hor, hdi, hdf⟩
  · have h1 : takeDigits (body ++ ex) = (body, ex) := by
      rw [takeDigits_append body ex hdig, hexTD]
      simp
    refine ⟨natOfDigits body, 0, ?_⟩
    unfold parseCoeff
    rw [h1]
    cases ex with
    | nil =>
      show (if body = [] then none else some (natOfDigits body, 0, [])) = _
      rw [if_neg hne]
    | cons c r =>
      show (if c = '.' then _ else if body = [] then none
        else some (natOfDigits body, 0, c :: r)) = _
      rw [if_neg (hexh c r rfl).2, if_neg hne]
  · have h1 : takeDigits (ip ++ '.' :: fp ++ ex) = (ip, '.' :: (fp ++ ex)) := by
      rw [show ip ++ '.' :: fp ++ ex = ip ++ ('.' :: (fp ++ ex)) from by simp,
        takeDigits_append ip _ hdi, takeDigits_not_digit '.' _ (by decide)]
      simp
    have h2 : takeDigits (fp ++ ex) = (fp, ex) := by
      rw [takeDigits_append fp ex hdf, hexTD]
      simp
    refine ⟨natOfDigits (ip ++ fp), fp.length, ?_⟩
    unfold parseCoeff
    rw [show (ip ++ '.' :: fp) ++ ex = ip ++ '.' :: fp ++ ex from by simp, h1]
    show (if ('.' : Char) = '.' then
        let fpp := takeDigits (fp ++ ex)
        if ip = [] ∧ fpp.1 = [] then none
        else some (natOfDigits (ip ++ fpp.1), (fpp.1).length, fpp.2)
      else if ip = [] then none
      else some (natOfDigits ip, 0, '.' :: (fp ++ ex))) = _
    rw [if_pos (rfl : ('.' : Char) = '.'), h2]
    show (if ip = [] ∧ fp = [] then none
      else some (natOfDigits (ip ++ fp), fp.length, ex)) = _
    rw [if_neg (fun hc => by
      rcases hor with h | h
      · exact h hc.1
      · exact h hc.2)]

theorem parseSignedNat_complete (sgn ds : List Char)
    (hs : sgn = [] ∨ sgn = ['+'] ∨ sgn = ['-']) (hne : ds ≠ [])
    (hdig : ∀ c ∈ ds, isDigitC c = true) :
    ∃ v, parseSignedNat (sgn ++ ds) = some v := by
  rcases hs with rfl | rfl | rfl
  · cases ds with
    | nil => exact absurd rfl hne
    | cons c r =>
      have hc := hdig c (List.mem_cons_self c r)
      obtain ⟨_, _, _, hm, hp, _, _, _⟩ := isDigitC_props c hc
      refine ⟨(natOfDigits (c :: r) : ℤ), ?_⟩
      rw [List.nil_append]
      simp only [parseSignedNat]
      rw [if_neg hp, if_neg hm, if_pos (List.all_eq_true.mpr hdig)]
  · refine ⟨(natOfDigits ds : ℤ), ?_⟩
    show parseSignedNat ('+' :: ds) = _
    simp only [parseSignedNat]
    rw [if_pos trivial,
      if_pos (⟨hne, List.all_eq_true.mpr hdig⟩ : ds ≠ [] ∧ ds.all isDigitC = true)]
  · refine ⟨-(natOfDigits ds : ℤ), ?_⟩
    show parseSignedNat ('-' :: ds) = _
    simp only [parseSignedNat]
    rw [if_pos trivial,
      if_neg (by decide : ¬('-' : Char) = '+'),
      if_pos (⟨hne, List.all_eq_true.mpr hdig⟩ : ds ≠ [] ∧ ds.all isDigitC = true)]

theorem numericBody_head (body ex : List Char) (hb : NumericBody body) :
    ∀ c r, body ++ ex = c :: r → ¬c = '+' ∧ ¬c = '-' := by
  intro c r he
  rcases hb with ⟨hne, hd⟩ | ⟨ip, fp, rfl, hor, hdi, hdf⟩
  · cases body with
    | nil => exact absurd rfl hne
    | cons b bs =>
      injection he with he1 _
      obtain ⟨_, _, _, hm, hp, _⟩ := isDigitC_props b (hd b (List.mem_cons_self b bs))
      exact ⟨he1 ▸ hp, he1 ▸ hm⟩
  · cases ip with
    | nil =>
      rw [List.nil_append, List.cons_append] at he
      injection he with he1 _
      exact ⟨he1 ▸ (by decide : ¬('.' : Char) = '+'),
        he1 ▸ (by decide : ¬('.' : Char) = '-')⟩
    | cons i is =>
      rw [List.cons_append, List.cons_append] at he
      injection he with he1 _
      obtain ⟨_, _, _, hm, hp, _⟩ := isDigitC_props i (hdi i (List.mem_cons_self i is))
      exact ⟨he1 ▸ hp, he1 ▸ hm⟩

theorem numericExp_head (ex : List Char) (hex : ex = [] ∨ NumericExp ex) :
    ∀ c r, ex = c :: r → isDigitC c = false ∧ c ≠ '.' := by
  intro c r he
  rcases hex with rfl | ⟨mark, sgn, ds, hm, _, _, _, hcs⟩
  · simp at he
  · rw [hcs] at he
    injection he with he1 _
    subst he1
    rcases hm with rfl | rfl <;> exact ⟨by decide, by decide⟩

theorem parseDecimalChars_complete (cs : List Char) (h : NumericChars cs) :
    ∃ v, parseDecimalChars cs = some v := by
  obtain ⟨sgn, body, ex, rfl, hs, hb, hex⟩ := h
  obtain ⟨coeff, scale, hpc⟩ := parseCoeff_body body ex hb (numericExp_head ex hex)
  have hrest : ∀ sv : ℤ, (match ex with
      | [] => some (sv * (coeff : ℤ), -(scale : ℤ))
      | c :: r2 =>
        if c = 'e' ∨ c = 'E' then
          match parseSignedNat r2 with
          | some e => some (sv * (coeff : ℤ), e - scale)
          | none => none
        else none).isSome = true := by
    intro sv
    rcases hex with rfl | ⟨mark, sg2, ds, hm, hs2, hne2, hdig2, hcs2⟩
    · simp
    · rw [hcs2]
      obtain ⟨v2, hv2⟩ := parseSignedNat_complete sg2 ds hs2 hne2 hdig2
      show (if mark = 'e' ∨ mark = 'E' then
          match parseSignedNat (sg2 ++ ds) with
          | some e => some (sv * (coeff : ℤ), e - (scale : ℤ))
          | none => none
        else none).isSome = true
      rw [if_pos hm, hv2]
      rfl
  have hsplit : ∃ sv : ℤ, splitSign (sgn ++ body ++ ex) = (sv, body ++ ex) := by
    rcases hs with rfl | rfl | rfl
    · rw [List.nil_append]
      cases hbe : body ++ ex with
      | nil =>
        rcases hb with ⟨hne, _⟩ | ⟨ip, fp, rfl, _, _, _⟩
        · cases body with
          | nil => exact absurd rfl hne
          | cons b bs => simp at hbe
        · simp at hbe
      | cons c r =>
        obtain ⟨hp, hm⟩ := numericBody_head body ex hb c r hbe
        refine ⟨1, ?_⟩
        show (if c = '+' then ((1 : ℤ), r) else if c = '-' then ((-1 : ℤ), r)
          else ((1 : ℤ), c :: r)) = (1, c :: r)
        rw [if_neg hp, if_neg hm]
    · refine ⟨1, ?_⟩
      show (if ('+' : Char) = '+' then ((1 : ℤ), body ++ ex)
        else if ('+' : Char) = '-' then ((-1 : ℤ), body ++ ex)
        else ((1 : ℤ), '+' :: (body ++ ex))) = (1, body ++ ex)
      rw [if_pos (rfl : ('+' : Char) = '+')]
    · refine ⟨-1, ?_⟩
      show (if ('-' : Char) = '+' then ((1 : ℤ), body ++ ex)
        else if ('-' : Char) = '-' then ((-1 : ℤ), body ++ ex)
        else ((1 : ℤ), '-' :: (body ++ ex))) = (-1, body ++ ex)
      rw [if_neg (by decide : ¬('-' : Char) = '+'), if_pos (rfl : ('-' : Char) = '-')]
  obtain ⟨sv, hX⟩ := hsplit
  unfold parseDecimalChars
  rw [hX]
  show ∃ v, (match parseCoeff (body ++ ex) with
    | none => none
    | some (coeff, scale, rest) =>
      match rest with
      | [] => some (sv * (coeff : ℤ), -(scale : ℤ))
      | c :: r2 =>
        if c = 'e' ∨ c = 'E' then
          match parseSignedNat r2 with
          | some e => some (sv * (coeff : ℤ), e - scale)
          | none => none
        else none) = some v
  rw [hpc]
  have hfin := hrest sv
  rwa [Option.isSome_iff_exists] at hfin

theorem splitSign_decomp (cs : List Char) :
    ∃ sgn, (sgn = [] ∨ sgn = ['+'] ∨ sgn = ['-']) ∧ cs = sgn ++ (splitSign cs).2 := by
  cases cs with
  | nil => exact ⟨[], Or.inl rfl, rfl⟩
  | cons c r =>
    by_cases h1 : c = '+'
    · subst h1
      refine ⟨['+'], Or.inr (Or.inl rfl), ?_⟩
      show '+' :: r = '+' :: (splitSign ('+' :: r)).2
      rw [show (splitSign ('+' :: r)).2 = r from by simp [splitSign]]
    · by_cases h2 : c = '-'
      · subst h2
        refine ⟨['-'], Or.inr (Or.inr rfl), ?_⟩
        show '-' :: r = '-' :: (splitSign ('-' :: r)).2
        rw [show (splitSign ('-' :: r)).2 = r from by simp [splitSign]]
      · refine ⟨[], Or.inl rfl, ?_⟩
        show c :: r = [] ++ (splitSign (c :: r)).2
        rw [show (splitSign (c :: r)).2 = c :: r from by simp [splitSign, h1, h2]]
        rfl

theorem parseCoeff_sound (cs : List Char) (coeff scale : ℕ) (rest : List Char)
    (h : parseCoeff cs = some (coeff, scale, rest)) :
    ∃ body, cs = body ++ rest ∧ NumericBody body := by
  obtain ⟨hsp, hdig, hstop⟩ := takeDigits_spec cs
  simp only [parseCoeff] at h
  split at h
  next c rest2 htd =>
    by_cases hdot : c = '.'
    · rw [if_pos hdot] at h
      obtain ⟨hsp2, hdig2, hstop2⟩ := takeDigits_spec rest2
      by_cases hg : (takeDigits cs).1 = [] ∧ (takeDigits rest2).1 = []
      · rw [if_pos hg] at h
        simp at h
      · rw [if_neg hg] at h
        simp only [Option.some.injEq, Prod.mk.injEq] at h
        obtain ⟨h1, h2, h3⟩ := h
        subst hdot
        refine ⟨(takeDigits cs).1 ++ '.' :: (takeDigits rest2).1, ?_, ?_⟩
        · rw [← h3]
          conv_lhs => rw [hsp, htd]
          conv_lhs => rw [hsp2]
          simp
        · exact Or.inr ⟨_, _, rfl, not_and_or.mp hg, hdig, hdig2⟩
    · rw [if_neg hdot] at h
      by_cases hip : (takeDigits cs).1 = []
      · rw [if_pos hip] at h
        simp at h
      · rw [if_neg hip] at h
        simp only [Option.some.injEq, Prod.mk.injEq] at h
        obtain ⟨h1, h2, h3⟩ := h
        refine ⟨(takeDigits cs).1, ?_, Or.inl ⟨hip, hdig⟩⟩
        rw [← h3]
        exact hsp
  next htd =>
    by_cases hip : (takeDigits cs).1 = []
    · rw [if_pos hip] at h
      simp at h
    · rw [if_neg hip] at h
      simp only [Option.some.injEq, Prod.mk.injEq] at h
      obtain ⟨h1, h2, h3⟩ := h
      refine ⟨(takeDigits cs).1, ?_, Or.inl ⟨hip, hdig⟩⟩
      rw [← h3]
      exact hsp

theorem parseSignedNat_sound (cs : List Char) (v : ℤ)
    (h : parseSignedNat cs = some v) :
    ∃ sgn ds, (sgn = [] ∨ sgn = ['+'] ∨ sgn = ['-']) ∧ ds ≠ [] ∧
      (∀ c ∈ ds, isDigitC c = true) ∧ cs = sgn ++ ds := by
  cases cs with
  | nil => simp [parseSignedNat] at h
  | cons c r =>
    simp only [parseSignedNat] at h
    by_cases h1 : c = '+'
    · rw [if_pos h1] at h
      by_cases h2 : r ≠ [] ∧ r.all isDigitC = true
      · subst h1
        exact ⟨['+'], r, Or.inr (Or.inl rfl), h2.1, List.all_eq_true.mp h2.2, rfl⟩
      · rw [if_neg h2] at h
        simp at h
    · rw [if_neg h1] at h
      by_cases h2 : c = '-'
      · rw [if_pos h2] at h
        by_cases h3 : r ≠ [] ∧ r.all isDigitC = true
        · subst h2
          exact ⟨['-'], r, Or.inr (Or.inr rfl), h3.1, List.all_eq_true.mp h3.2, rfl⟩
        · rw [if_neg h3] at h
          simp at h
      · rw [if_neg h2] at h
        by_cases h3 : (c :: r).all isDigitC = true
        · exact ⟨[], c :: r, Or.inl rfl, List.cons_ne_nil c r,
            List.all_eq_true.mp h3, rfl⟩
        · rw [if_neg h3] at h
          simp at h

theorem parseDecimalChars_sound (cs : List Char) (v : ℤ × ℤ)
    (h : parseDecimalChars cs = some v) : NumericChars cs := by
  obtain ⟨sgn, hsgn, hdecomp⟩ := splitSign_decomp cs
  simp only [parseDecimalChars] at h
  split at h
  next hpc => simp at h
  next coeff scale rest hpc =>
    obtain ⟨body, hbody, hnb⟩ := parseCoeff_sound _ coeff scale rest hpc
    cases rest with
    | nil =>
      refine ⟨sgn, body, [], ?_, hsgn, hnb, Or.inl rfl⟩
      rw [hdecomp, hbody]
      simp
    | cons c r2 =>
      simp only [] at h
      by_cases hce : c = 'e' ∨ c = 'E'
      · rw [if_pos hce] at h
        split at h
        next e2 hps =>
          obtain ⟨sg2, ds, hs2, hne2, hdig2, hr2⟩ := parseSignedNat_sound r2 e2 hps
          refine ⟨sgn, body, c :: r2, ?_, hsgn, hnb, Or.inr ?_⟩
          · rw [hdecomp, hbody]
            simp
          · exact ⟨c, sg2, ds, hce, hs2, hne2, hdig2, by rw [hr2]⟩
        next hps => simp at h
      · rw [if_neg hce] at h
        simp at h

theorem d_isSome_iff (s : String) :
    (∃ k, d s = some k) ↔ NumericChars (stripWS s.data) := by
  constructor
  · rintro ⟨k, hk⟩
    cases hp : parseDecimalChars (stripWS s.data) with
    | none =>
      unfold d at hk
      rw [hp] at hk
      simp at hk
    | some me => exact parseDecimalChars_sound _ me hp
  · intro hn
    obtain ⟨mv, hv⟩ := parseDecimalChars_complete _ hn
    obtain ⟨m, e⟩ := mv
    unfold d
    rw [hv]
    exact ⟨quantize2HalfUp m e, rfl⟩

/-- C8 counterexample: `parseMoney` cannot read back the rendering of
`fmt_money`: the "$" sign (and the thousands comma, which the
comma-to-point normalization turns into a second decimal point) make the
formatted string unparseable, so the round-trip of the claim fails at
x = 1234.50. -/
theorem parse_format_counterexample :
    fmt_money 123450 = "$1,234.50" ∧
    parseMoney (fmt_money 123450) = none ∧
    ¬ parseMoney (fmt_money 123450) = some 123450 := by decide

/-- C8 amended: `fmt_money` renders "$" plus the thousands-grouped integer
part plus "." plus the 2-digit fractional part, and the rendering is
faithful: for every 2-place value (every cent count `n`), parsing the
rendering after removing the display-only "$" and "," characters yields
back exactly `n` — but `parseMoney` applied to the raw rendering fails, so
the round-trip holds only after stripping the currency decorations. -/
theorem parse_format_round_trip_amended (n : ℤ) :
    parseMoney (stripCurrency (fmt_money n)) = some n := by
  have hI := natToChars_digits (n.natAbs / 100)
  have hF := twoDigitChars_digits (n.natAbs % 100) (Nat.mod_lt _ (by norm_num))
  have hnc : ∀ c ∈ (stripCurrency (fmt_money n)).data, c ≠ ',' := by
    rw [stripCurrency_fmt_data]
    intro c hc
    rcases List.mem_append.mp hc with hc1 | hc2
    · rcases List.mem_append.mp hc1 with hs | hi
      · by_cases hn : n < 0
        · rw [if_pos hn] at hs
          simp at hs
          subst hs
          decide
        · rw [if_neg hn] at hs
          simp at hs
      · exact (isDigitC_props c (hI c hi)).1
    · rcases List.mem_cons.mp hc2 with rfl | hf
      · decide
      · exact (isDigitC_props c (hF c hf)).1
  have hmap : commaToPoint (stripCurrency (fmt_money n)) = stripCurrency (fmt_money n) := by
    show (⟨(stripCurrency (fmt_money n)).data.map _⟩ : String) = _
    rw [map_noComma_eq _ hnc]
  rw [parseMoney, hmap]
  rw [show stripCurrency (fmt_money n) = ⟨(stripCurrency (fmt_money n)).data⟩ from rfl,
    stripCurrency_fmt_data]
  rw [d_signed_digits (n < 0) (natToChars (n.natAbs / 100))
    (twoDigitChars (n.natAbs % 100)) (natToChars_ne_nil _) hI hF]
  congr 1
  rw [natOfDigits_append, natOfDigits_natToChars,
    natOfDigits_twoDigit _ (Nat.mod_lt _ (by norm_num)),
    show (twoDigitChars (n.natAbs % 100)).length = 2 from rfl,
    show (10 : ℕ) ^ 2 = 100 from by norm_num,
    show n.natAbs / 100 * 100 + n.natAbs % 100 = n.natAbs from by omega]
  rw [show (-((2 : ℕ) : ℤ)) = -2 from by norm_num]
  rw [quantize2HalfUp, if_pos (by norm_num : (0 : ℤ) ≤ -2 + 2)]
  rw [show ((-2 : ℤ) + 2).toNat = 0 from rfl, pow_zero, mul_one]
  by_cases hn : n < 0
  · rw [if_pos hn]
    omega
  · rw [if_neg hn]
    omega

/-- Witness for `per_day_guarded_half_even` at `tieState` on
2026-01-30. -/
theorem per_day_guarded_half_even_witness :
    Date.valid ⟨2026, 1, 30⟩ ∧
    remaining_and_per_day tieState ⟨2026, 1, 30⟩ = some (5, 2, 2) ∧
    ((∀ r0 : ℤ, perDayCalc r0 0 = 0) ∧
      1 ≤ (2 : ℤ) ∧
      (2 : ℤ) = divHalfEven 5 2 ∧
      |((2 : ℤ) : ℚ) - ((5 : ℤ) : ℚ) / ((2 : ℤ) : ℚ)| ≤ 1 / 2 ∧
      (|((2 : ℤ) : ℚ) - ((5 : ℤ) : ℚ) / ((2 : ℤ) : ℚ)| = 1 / 2 →
        (2 : ℤ) % 2 = 0)) :=
  ⟨by decide, by decide,
    per_day_guarded_half_even tieState ⟨2026, 1, 30⟩ (by decide) 5 2 2 (by decide)⟩

/-- Rewriting points to commas and then normalizing commas back to points
is the same as normalizing the original string. -/
theorem commaToPoint_pointToComma (s : String) :
    commaToPoint (pointToComma s) = commaToPoint s := by
  show (⟨((s.data.map fun c => if c = '.' then ',' else c).map
      fun c => if c = ',' then '.' else c)⟩ : String) =
    ⟨s.data.map fun c => if c = ',' then '.' else c⟩
  rw [List.map_map]
  refine congrArg (fun l => (⟨l⟩ : String)) (List.map_congr_left ?_)
  intro c hc
  show (if (if c = '.' then ',' else c) = ',' then '.'
    else (if c = '.' then ',' else c)) = (if c = ',' then '.' else c)
  by_cases h1 : c = '.'
  · subst h1
    rfl
  · rw [if_neg h1]

/-- The executable NaN-tail recognizer matches the declarative form. -/
theorem isNaNBody_iff (l : List Char) : isNaNBody l = true ↔ NaNForm l := by
  constructor
  · intro h
    cases l with
    | nil => simp [isNaNBody] at h
    | cons a t1 =>
      cases t1 with
      | nil => simp [isNaNBody] at h
      | cons b t2 =>
        cases t2 with
        | nil => simp [isNaNBody] at h
        | cons c ds =>
          simp only [isNaNBody, Bool.and_eq_true, decide_eq_true_eq] at h
          obtain ⟨⟨⟨ha, hb⟩, hc⟩, hd⟩ := h
          subst ha
          subst hb
          subst hc
          exact ⟨ds, List.all_eq_true.mp hd, rfl⟩
  · rintro ⟨ds, hds, rfl⟩
    simp [isNaNBody, List.all_eq_true.mpr hds]

/-- The executable special-body recognizer succeeds exactly on the
declarative special tails (over the lowercased characters). -/
theorem parseSpecialBody_isSome_iff (cs : List Char) :
    (parseSpecialBody cs).isSome = true ↔ SpecialTail (lowerChars cs) := by
  constructor
  · intro h
    unfold parseSpecialBody at h
    by_cases h1 : lowerChars cs = ['i', 'n', 'f'] ∨
        lowerChars cs = ['i', 'n', 'f', 'i', 'n', 'i', 't', 'y']
    · rcases h1 with h1 | h1
      · exact Or.inl h1
      · exact Or.inr (Or.inl h1)
    · rw [if_neg h1] at h
      by_cases h2 : isNaNBody (lowerChars cs) = true
      · exact Or.inr (Or.inr (Or.inl ((isNaNBody_iff _).mp h2)))
      · rw [if_neg h2] at h
        cases cs with
        | nil => simp at h
        | cons c t =>
          simp only [] at h
          by_cases h3 : Char.toLower c = 's' ∧ isNaNBody (lowerChars t) = true
          · refine Or.inr (Or.inr (Or.inr ⟨lowerChars t, ?_, (isNaNBody_iff _).mp h3.2⟩))
            show Char.toLower c :: lowerChars t = 's' :: lowerChars t
            rw [h3.1]
          · rw [if_neg h3] at h
            simp at h
  · intro h
    unfold parseSpecialBody
    rcases h with h | h | h | ⟨t, ht, hn⟩
    · rw [if_pos (Or.inl h)]
      rfl
    · rw [if_pos (Or.inr h)]
      rfl
    · obtain ⟨ds, hds, hl⟩ := h
      have h1 : ¬(lowerChars cs = ['i', 'n', 'f'] ∨
          lowerChars cs = ['i', 'n', 'f', 'i', 'n', 'i', 't', 'y']) := by
        rw [hl]
        rintro (hc | hc) <;> simp at hc
      rw [if_neg h1, if_pos ((isNaNBody_iff _).mpr ⟨ds, hds, hl⟩)]
      rfl
    · obtain ⟨ds, hds, hnl⟩ := hn
      have h1 : ¬(lowerChars cs = ['i', 'n', 'f'] ∨
          lowerChars cs = ['i', 'n', 'f', 'i', 'n', 'i', 't', 'y']) := by
        rw [ht, hnl]
        rintro (hc | hc) <;> simp at hc
      have h2 : isNaNBody (lowerChars cs) = false := by
        rw [ht, hnl]
        simp [isNaNBody]
      rw [if_neg h1, if_neg (by simp [h2])]
      cases cs with
      | nil =>
        exfalso
        rw [show lowerChars [] = [] from rfl] at ht
        exact List.noConfusion ht
      | cons c r =>
        have h0 : Char.toLower c :: lowerChars r = 's' :: t := ht
        have hc : Char.toLower c = 's' ∧ lowerChars r = t := by
          injection h0 with h1 h2
          exact ⟨h1, h2⟩
        show (if Char.toLower c = 's' ∧ isNaNBody (lowerChars r) = true then
          some SpecialKind.signalingNaN else none).isSome = true
        rw [if_pos ⟨hc.1, by rw [hc.2, hnl]; exact (isNaNBody_iff _).mpr ⟨ds, hds, rfl⟩⟩]
        rfl

/-- Lowercasing the head of a special tail never yields a sign
character. -/
theorem specialTail_head_not_sign (c : Char) (t : List Char)
    (h : SpecialTail (lowerChars (c :: t))) : ¬c = '+' ∧ ¬c = '-' := by
  have hlc : Char.toLower c = 'i' ∨ Char.toLower c = 'n' ∨ Char.toLower c = 's' := by
    rcases h with h | h | ⟨ds, _, h⟩ | ⟨t2, h, _⟩ <;>
      rw [show lowerChars (c :: t) = Char.toLower c :: lowerChars t from rfl] at h
    · injection h with h1 h2
      exact Or.inl h1
    · injection h with h1 h2
      exact Or.inl h1
    · injection h with h1 h2
      exact Or.inr (Or.inl h1)
    · injection h with h1 h2
      exact Or.inr (Or.inr h1)
  constructor
  · rintro rfl
    rcases hlc with hlc | hlc | hlc <;> exact absurd hlc (by decide)
  · rintro rfl
    rcases hlc with hlc | hlc | hlc <;> exact absurd hlc (by decide)

/-- The executable special parse succeeds exactly on the declarative
special grammar. -/
theorem parseSpecial_isSome_iff (cs : List Char) :
    (parseSpecial cs).isSome = true ↔ SpecialChars cs := by
  constructor
  · intro h
    obtain ⟨sgn, hsgn, hdec⟩ := splitSign_decomp cs
    exact ⟨sgn, (splitSign cs).2, hsgn, hdec, (parseSpecialBody_isSome_iff _).mp h⟩
  · rintro ⟨sgn, rest, hsgn, rfl, htail⟩
    have hsplit : (splitSign (sgn ++ rest)).2 = rest := by
      rcases hsgn with rfl | rfl | rfl
      · rw [List.nil_append]
        cases rest with
        | nil =>
          exfalso
          rcases htail with h | h | ⟨ds, _, h⟩ | ⟨t, h, _⟩ <;>
            exact List.noConfusion h
        | cons c t =>
          obtain ⟨hp, hm⟩ := specialTail_head_not_sign c t htail
          show (if c = '+' then ((1 : ℤ), t)
            else if c = '-' then (-1, t) else (1, c :: t)).2 = c :: t
          rw [if_neg hp, if_neg hm]
      · show (if ('+' : Char) = '+' then ((1 : ℤ), rest)
          else if ('+' : Char) = '-' then (-1, rest) else (1, '+' :: rest)).2 = rest
        rw [if_pos rfl]
      · show (if ('-' : Char) = '+' then ((1 : ℤ), rest)
          else if ('-' : Char) = '-' then (-1, rest) else (1, '-' :: rest)).2 = rest
        rw [if_neg (by decide : ¬('-' : Char) = '+'), if_pos rfl]
    unfold parseSpecial
    rw [hsplit]
    exact (parseSpecialBody_isSome_iff rest).mpr htail

/-- Reduction of `parseMoneyFull` to its normalized text. -/
theorem parseMoneyFull_eq (s : String) :
    parseMoneyFull s =
      (match parseDecimalChars (moneyNorm s) with
      | some (m, e) =>
        if (quantize2HalfUp m e).natAbs < 10 ^ 28 then
          DResult.val (quantize2HalfUp m e)
        else DResult.uncaught
      | none =>
        match parseSpecial (moneyNorm s) with
        | some SpecialKind.quietNaN => DResult.nan
        | some SpecialKind.signalingNaN => DResult.uncaught
        | some SpecialKind.infinity => DResult.uncaught
        | none => DResult.invalidAmount) := rfl

/-- The full-outcome parse fails with InvalidAmount exactly when the
normalized text matches neither the finite numeric grammar nor a special
value. -/
theorem dFull_invalid_iff (s : String) :
    parseMoneyFull s = DResult.invalidAmount ↔
      ¬(NumericChars (moneyNorm s) ∨ SpecialChars (moneyNorm s)) := by
  rw [parseMoneyFull_eq]
  cases hp : parseDecimalChars (moneyNorm s) with
  | some me =>
    obtain ⟨m, e⟩ := me
    simp only []
    constructor
    · intro h
      by_cases hq : (quantize2HalfUp m e).natAbs < 10 ^ 28
      · rw [if_pos hq] at h
        exact DResult.noConfusion h
      · rw [if_neg hq] at h
        exact DResult.noConfusion h
    · intro h
      exact absurd (Or.inl (parseDecimalChars_sound _ (m, e) hp)) h
  | none =>
    cases hs : parseSpecial (moneyNorm s) with
    | some k =>
      cases k <;> simp only [] <;> constructor <;> intro h
      · exact DResult.noConfusion h
      · exact absurd (Or.inr ((parseSpecial_isSome_iff _).mp (by rw [hs]; rfl))) h
      · exact DResult.noConfusion h
      · exact absurd (Or.inr ((parseSpecial_isSome_iff _).mp (by rw [hs]; rfl))) h
      · exact DResult.noConfusion h
      · exact absurd (Or.inr ((parseSpecial_isSome_iff _).mp (by rw [hs]; rfl))) h
    | none =>
      simp only []
      constructor
      · intro _ hOr
        rcases hOr with hN | hS
        · obtain ⟨v, hv⟩ := parseDecimalChars_complete _ hN
          rw [hp] at hv
          exact Option.noConfusion hv
        · have := (parseSpecial_isSome_iff (moneyNorm s)).mpr hS
          rw [hs] at this
          exact Bool.noConfusion this
      · intro _
        trivial

/-- A normalized text in the numeric grammar parses, and the full outcome
is the quantized value unless its coefficient exceeds the 28-digit
precision, in which case the quantize raises the uncaught error. -/
theorem dFull_numeric (s : String) (h : NumericChars (moneyNorm s)) :
    ∃ m e, parseDecimalChars (moneyNorm s) = some (m, e) ∧
      parseMoneyFull s =
        (if (quantize2HalfUp m e).natAbs < 10 ^ 28 then
          DResult.val (quantize2HalfUp m e)
        else DResult.uncaught) := by
  obtain ⟨v, hv⟩ := parseDecimalChars_complete _ h
  obtain ⟨m, e⟩ := v
  refine ⟨m, e, hv, ?_⟩
  rw [parseMoneyFull_eq, hv]

/-- C9 counterexample: the program does not fail with InvalidAmount on
every text that is not a valid number.  `Decimal("NaN")` is accepted by the
constructor and the quantize propagates the quiet NaN, so `d("NaN")`
returns NaN with no failure at all; `Decimal("Infinity")` is also accepted,
and the quantize — which sits outside the `try` — raises
`decimal.InvalidOperation` uncaught, a different failure from the
InvalidAmount `ValueError`; and digit-group underscores are accepted, so
`d("1_5")` yields 15.00 rather than failing. -/
theorem parseMoney_specials_counterexample :
    parseMoneyFull "NaN" = DResult.nan ∧
    ¬DResult.nan = DResult.invalidAmount ∧
    parseMoneyFull "Infinity" = DResult.uncaught ∧
    ¬DResult.uncaught = DResult.invalidAmount ∧
    parseMoneyFull "1_5" = DResult.val 1500 := by decide

/-- C9 amended: `parseMoney` replaces every comma by a point before
parsing, so the comma spelling of a number parses exactly like the point
spelling (a point-to-comma respelling never changes the outcome), and
`parseMoney "12,50"` yields 12.50 (1250 cents).  For ASCII input whose
digit runs have at most 17 digits (so every exponent literal stays within
the C decimal module's representable range), the parse fails with
InvalidAmount exactly when the comma-normalized, whitespace-stripped,
underscore-free text matches neither the finite numeric grammar nor a
special value (`inf`/`infinity`, `nan`/`snan` with optional diagnostic
digits, case-insensitive, optionally signed); on a numeric-grammar match
the outcome is the half-up-quantized cent value when its coefficient fits
the 28-digit context precision and otherwise the uncaught quantize error.
Special values never produce InvalidAmount: a quiet NaN comes back as a
NaN result, while infinities and signaling NaNs raise the uncaught error.
"abc", "", "12,34,56" and "$12.50" all fail with InvalidAmount. -/
theorem parseMoney_comma_point_amended :
    parseMoneyFull "12,50" = DResult.val 1250 ∧
    parseMoneyFull "12.50" = DResult.val 1250 ∧
    (∀ s : String, parseMoneyFull (pointToComma s) = parseMoneyFull s) ∧
    (∀ s : String, (∀ c ∈ s.data, c.toNat < 128) →
      maxDigitRun (moneyNorm s) ≤ 17 →
      ((parseMoneyFull s = DResult.invalidAmount ↔
        ¬(NumericChars (moneyNorm s) ∨ SpecialChars (moneyNorm s))) ∧
      (NumericChars (moneyNorm s) →
        ∃ m e, parseDecimalChars (moneyNorm s) = some (m, e) ∧
          parseMoneyFull s =
            (if (quantize2HalfUp m e).natAbs < 10 ^ 28 then
              DResult.val (quantize2HalfUp m e)
            else DResult.uncaught)))) ∧
    parseMoneyFull "-inf" = DResult.uncaught ∧
    parseMoneyFull "sNaN" = DResult.uncaught ∧
    parseMoneyFull "nan123" = DResult.nan ∧
    parseMoneyFull "abc" = DResult.invalidAmount ∧
    parseMoneyFull "" = DResult.invalidAmount ∧
    parseMoneyFull "12,34,56" = DResult.invalidAmount ∧
    parseMoneyFull "$12.50" = DResult.invalidAmount := by
  refine ⟨by decide, by decide, ?_, ?_, by decide, by decide, by decide,
    by decide, by decide, by decide, by decide⟩
  · intro s
    unfold parseMoneyFull
    rw [commaToPoint_pointToComma]
  · intro s _ _
    exact ⟨dFull_invalid_iff s, dFull_numeric s⟩

/-- Witness for `parseMoney_comma_point_amended` at the ASCII input
"12.50", whose digit runs have at most 17 digits. -/
theorem parseMoney_comma_point_amended_witness :
    parseMoneyFull (pointToComma "3.50") = parseMoneyFull "3.50" ∧
    ((∀ c ∈ ("12.50" : String).data, c.toNat < 128) ∧
      maxDigitRun (moneyNorm "12.50") ≤ 17 ∧
      (parseMoneyFull "12.50" = DResult.invalidAmount ↔
        ¬(NumericChars (moneyNorm "12.50") ∨ SpecialChars (moneyNorm "12.50")))) :=
  ⟨parseMoney_comma_point_amended.2.2.1 "3.50",
    by decide, by decide,
    (parseMoney_comma_point_amended.2.2.2.1 "12.50" (by decide) (by decide)).1⟩


end ControlGastos
